import Mathlib

/-!
Verification of the AirPath height-aware grid pathfinding documentation.

The repository documents a height-aware A* pathfinder: a cost model over
per-cell elevations (movement + altitude + climb + slope), an octile
heuristic, corner-cutting-safe diagonal movement, world/grid coordinate
conversion with clamping, a recalculation throttle for moving targets, and
a service/event layer.  This file embeds those definitions and proves or
refutes the documented properties.

Real-valued quantities (elevations, cell sizes, costs) are embedded as `ℝ`
where exact constants such as `√2` matter, and as `ℚ` for the executable
search engine and control logic, where the documentation itself uses the
decimal constants `1.414` and `0.414`.
-/

namespace AirPath

/-! ## Cost model (docs/core-concepts/pathfinding-algorithm.md)

The documentation defines, for a move between two adjacent cells:

  Movement Cost: cardinal `1.0 × CellSize`, diagonal `√2 × CellSize`
  Altitude Cost = Height × FlyCostMultiplier × 0.01
  Climb Cost    = HeightDifference × FlyCostMultiplier × 0.5  (only uphill)
  Slope Penalty = |HeightDifference| × FlyCostMultiplier × 0.1
  Fly Cost      = Altitude Cost + Climb Cost + Slope Penalty
  edge cost     = Movement Cost + Fly Cost
-/

/-- Movement cost: `1.0 × CellSize` for cardinal moves, `√2 × CellSize`
(displayed as `1.414` in the docs) for diagonal moves. -/
noncomputable def movementCost (diagonal : Bool) (cellSize : ℝ) : ℝ :=
  (if diagonal then Real.sqrt 2 else 1) * cellSize

/-- Altitude cost: `Height × FlyCostMultiplier × 0.01`, charged on the
destination cell's elevation. -/
def altitudeCost (toElevation multiplier : ℝ) : ℝ :=
  toElevation * multiplier * 0.01

/-- Climb cost: `HeightDifference × FlyCostMultiplier × 0.5` when going
uphill (`heightDiff > 0`), `0` when going downhill or level. -/
noncomputable def climbCost (fromElevation toElevation multiplier : ℝ) : ℝ :=
  if 0 < toElevation - fromElevation then
    (toElevation - fromElevation) * multiplier * 0.5
  else 0

/-- Slope penalty: `|HeightDifference| × FlyCostMultiplier × 0.1`. -/
def slopePenalty (fromElevation toElevation multiplier : ℝ) : ℝ :=
  |toElevation - fromElevation| * multiplier * 0.1

/-- Fly cost: altitude cost + climb cost + slope penalty. -/
noncomputable def flyCost (fromElevation toElevation multiplier : ℝ) : ℝ :=
  altitudeCost toElevation multiplier
    + climbCost fromElevation toElevation multiplier
    + slopePenalty fromElevation toElevation multiplier

/-- Edge cost of a single move: movement cost plus fly cost. -/
noncomputable def edgeCost (fromElevation toElevation : ℝ) (diagonal : Bool)
    (cellSize multiplier : ℝ) : ℝ :=
  movementCost diagonal cellSize + flyCost fromElevation toElevation multiplier

lemma climbCost_eq_max (f t m : ℝ) :
    climbCost f t m = max 0 (t - f) * m * 0.5 := by
  unfold climbCost
  rcases lt_or_le 0 (t - f) with h | h
  · rw [if_pos h, max_eq_right h.le]
  · rw [if_neg (not_lt.mpr h), max_eq_left h, zero_mul, zero_mul]

lemma climbCost_nonneg (f t m : ℝ) (hm : 0 ≤ m) : 0 ≤ climbCost f t m := by
  unfold climbCost
  split
  · positivity
  · exact le_refl 0

lemma slopePenalty_nonneg (f t m : ℝ) (hm : 0 ≤ m) : 0 ≤ slopePenalty f t m := by
  unfold slopePenalty
  positivity

lemma movementCost_nonneg (d : Bool) (cs : ℝ) (hcs : 0 ≤ cs) :
    0 ≤ movementCost d cs := by
  unfold movementCost
  apply mul_nonneg _ hcs
  cases d
  · norm_num
  · simp

lemma altitudeCost_nonneg (t m : ℝ) (ht : 0 ≤ t) (hm : 0 ≤ m) :
    0 ≤ altitudeCost t m := by
  unfold altitudeCost
  positivity

/-- With a non-negative multiplier and a non-negative destination elevation,
the edge cost is at least the flat movement cost. -/
lemma movementCost_le_edgeCost (f t : ℝ) (d : Bool) (cs m : ℝ)
    (ht : 0 ≤ t) (hm : 0 ≤ m) :
    movementCost d cs ≤ edgeCost f t d cs m := by
  unfold edgeCost flyCost
  have h1 := altitudeCost_nonneg t m ht hm
  have h2 := climbCost_nonneg f t m hm
  have h3 := slopePenalty_nonneg f t m hm
  linarith

/-! ## Octile heuristic

`Octile Distance = max(dx, dy) + (√2 − 1) × min(dx, dy)` (the docs display
the coefficient as `0.414`), where `dx`, `dy` are grid distances to the
target; the heuristic scales this by the cell size. -/

/-- Octile distance between grid displacements `dx`, `dy` (in cells). -/
noncomputable def octileDist (dx dy : ℕ) : ℝ :=
  max (dx : ℝ) (dy : ℝ) + (Real.sqrt 2 - 1) * min (dx : ℝ) (dy : ℝ)

/-- Heuristic value from cell `c` to goal `g`: octile distance of the
grid displacement, scaled by the cell size. -/
noncomputable def heuristic (cellSize : ℝ) (c g : ℤ × ℤ) : ℝ :=
  cellSize * octileDist (c.1 - g.1).natAbs (c.2 - g.2).natAbs

lemma sqrt_two_bounds : 1 ≤ Real.sqrt 2 ∧ Real.sqrt 2 ≤ 2 := by
  have h0 : (0:ℝ) ≤ 2 := by norm_num
  have hsq : Real.sqrt 2 * Real.sqrt 2 = 2 := Real.mul_self_sqrt h0
  have hnn : 0 ≤ Real.sqrt 2 := Real.sqrt_nonneg 2
  constructor
  · nlinarith
  · nlinarith

lemma octileDist_comm (a b : ℕ) : octileDist a b = octileDist b a := by
  unfold octileDist
  rw [max_comm, min_comm]

lemma octileDist_self (a : ℕ) : octileDist a a = Real.sqrt 2 * a := by
  unfold octileDist
  rw [max_self, min_self]
  ring

lemma octileDist_zero_zero : octileDist 0 0 = 0 := by
  unfold octileDist
  norm_num

lemma octileDist_mono_left {a a' : ℕ} (b : ℕ) (h : a ≤ a') :
    octileDist a b ≤ octileDist a' b := by
  unfold octileDist
  have hc : (a : ℝ) ≤ (a' : ℝ) := by exact_mod_cast h
  have h1 : max (a : ℝ) b ≤ max (a' : ℝ) b := max_le_max hc le_rfl
  have h2 : min (a : ℝ) b ≤ min (a' : ℝ) b := min_le_min hc le_rfl
  have h3 : (0:ℝ) ≤ Real.sqrt 2 - 1 := by
    have := sqrt_two_bounds.1; linarith
  nlinarith

lemma octileDist_succ_left (a b : ℕ) :
    octileDist (a + 1) b ≤ octileDist a b + 1 := by
  unfold octileDist
  have hs := sqrt_two_bounds
  rcases le_or_lt (a + 1) b with h | h
  · -- the increment is absorbed by the `min` coordinate
    have hab : a ≤ b := Nat.le_of_succ_le h
    have h1 : max ((a:ℝ) + 1) b = b := by
      rw [max_eq_right]; exact_mod_cast h
    have h2 : min ((a:ℝ) + 1) b = (a:ℝ) + 1 := by
      rw [min_eq_left]; exact_mod_cast h
    have h3 : max (a:ℝ) b = b := by
      rw [max_eq_right]; exact_mod_cast hab
    have h4 : min (a:ℝ) b = a := by
      rw [min_eq_left]; exact_mod_cast hab
    push_cast
    rw [h1, h2, h3, h4]
    nlinarith
  · -- the increment lands on the `max` coordinate
    have hba : b ≤ a := Nat.lt_succ_iff.mp h
    have h1 : max ((a:ℝ) + 1) b = (a:ℝ) + 1 := by
      rw [max_eq_left]
      have : (b:ℝ) ≤ a := by exact_mod_cast hba
      linarith
    have h2 : min ((a:ℝ) + 1) b = b := by
      rw [min_eq_right]
      have : (b:ℝ) ≤ a := by exact_mod_cast hba
      linarith
    have h3 : max (a:ℝ) b = a := by
      rw [max_eq_left]; exact_mod_cast hba
    have h4 : min (a:ℝ) b = b := by
      rw [min_eq_right]; exact_mod_cast hba
    push_cast
    rw [h1, h2, h3, h4]
    linarith

lemma octileDist_succ_right (a b : ℕ) :
    octileDist a (b + 1) ≤ octileDist a b + 1 := by
  rw [octileDist_comm, octileDist_comm a b]
  exact octileDist_succ_left b a

lemma octileDist_succ_succ (a b : ℕ) :
    octileDist (a + 1) (b + 1) = octileDist a b + Real.sqrt 2 := by
  unfold octileDist
  have h1 : max ((a:ℕ) + 1) (b + 1) = max a b + 1 := Nat.succ_max_succ a b
  have h2 : min ((a:ℕ) + 1) (b + 1) = min a b + 1 := Nat.succ_min_succ a b
  push_cast
  rw [show max ((a:ℝ) + 1) ((b:ℝ) + 1) = max (a:ℝ) b + 1 by
        rw [← Nat.cast_max]; exact_mod_cast congrArg Nat.cast h1,
      show min ((a:ℝ) + 1) ((b:ℝ) + 1) = min (a:ℝ) b + 1 by
        rw [← Nat.cast_min]; exact_mod_cast congrArg Nat.cast h2]
  ring

/-! ## Grid model and walks

`GridModel` holds the configuration (width/height in cells, cell size,
fly-cost multiplier) together with the sampled elevation of each cell, as
described in docs/core-concepts/grid-system.md and grid-utilities.md. -/

/-- A grid cell, identified by integer grid coordinates. -/
abbrev Cell := ℤ × ℤ

/-- Grid configuration plus per-cell elevation samples. -/
structure GridModel where
  width : ℕ
  height : ℕ
  cellSize : ℝ
  multiplier : ℝ
  elevation : Cell → ℝ

/-- A cell is in bounds when both coordinates lie in `[0, dimension)`. -/
def InBounds (G : GridModel) (c : Cell) : Prop :=
  0 ≤ c.1 ∧ c.1 < (G.width : ℤ) ∧ 0 ≤ c.2 ∧ c.2 < (G.height : ℤ)

instance (G : GridModel) (c : Cell) : Decidable (InBounds G c) := by
  unfold InBounds; infer_instance

/-- One 8-directional move: the two cells differ, and each coordinate
changes by at most one cell. -/
def IsStep (a b : Cell) : Prop :=
  a ≠ b ∧ (a.1 - b.1).natAbs ≤ 1 ∧ (a.2 - b.2).natAbs ≤ 1

instance (a b : Cell) : Decidable (IsStep a b) := by
  unfold IsStep; infer_instance

/-- Whether a move is diagonal: both coordinates change. -/
def isDiagStep (a b : Cell) : Bool :=
  decide ((a.1 - b.1).natAbs = 1 ∧ (a.2 - b.2).natAbs = 1)

/-- Cost of one move on the grid, per the documented cost model. -/
noncomputable def stepCost (G : GridModel) (a b : Cell) : ℝ :=
  edgeCost (G.elevation a) (G.elevation b) (isDiagStep a b)
    G.cellSize G.multiplier

/-- Total cost of a walk (a list of successively visited cells). -/
noncomputable def walkCost (G : GridModel) : List Cell → ℝ
  | a :: b :: rest => stepCost G a b + walkCost G (b :: rest)
  | _ => 0

/-- A walk stays in bounds and moves by 8-directional steps. -/
def IsWalk (G : GridModel) (p : List Cell) : Prop :=
  (∀ c ∈ p, InBounds G c) ∧ p.Chain' IsStep

/-- A walk from `s` to `g`. -/
def IsWalkFrom (G : GridModel) (p : List Cell) (s g : Cell) : Prop :=
  IsWalk G p ∧ p.head? = some s ∧ p.getLast? = some g

/-- The admissibility property claimed by the documentation: the scaled
octile heuristic at a cell never exceeds the cost of any walk from that
cell to the goal (hence never exceeds the true minimal remaining cost). -/
def HeuristicAdmissible (G : GridModel) (goal : Cell) : Prop :=
  ∀ p s, IsWalkFrom G p s goal → heuristic G.cellSize s goal ≤ walkCost G p

lemma octileDist_mono (a a' b b' : ℕ) (ha : a ≤ a') (hb : b ≤ b') :
    octileDist a b ≤ octileDist a' b' := by
  calc octileDist a b ≤ octileDist a' b := octileDist_mono_left b ha
    _ = octileDist b a' := octileDist_comm a' b
    _ ≤ octileDist b' a' := octileDist_mono_left a' hb
    _ = octileDist a' b' := octileDist_comm b' a'

/-- Per-step consistency of the octile distance: one move decreases it by
at most the move's flat weight (`√2` diagonal, `1` cardinal). -/
lemma octileDist_step (a b g : Cell) (hstep : IsStep a b) :
    octileDist (a.1 - g.1).natAbs (a.2 - g.2).natAbs ≤
      (if isDiagStep a b then Real.sqrt 2 else 1)
        + octileDist (b.1 - g.1).natAbs (b.2 - g.2).natAbs := by
  obtain ⟨hne, hx, hy⟩ := hstep
  have hxtri : (a.1 - g.1).natAbs ≤ (b.1 - g.1).natAbs + (a.1 - b.1).natAbs := by
    have : a.1 - g.1 = (b.1 - g.1) + (a.1 - b.1) := by ring
    rw [this]
    exact le_trans (Int.natAbs_add_le _ _) (by omega)
  have hytri : (a.2 - g.2).natAbs ≤ (b.2 - g.2).natAbs + (a.2 - b.2).natAbs := by
    have : a.2 - g.2 = (b.2 - g.2) + (a.2 - b.2) := by ring
    rw [this]
    exact le_trans (Int.natAbs_add_le _ _) (by omega)
  set dxa := (a.1 - g.1).natAbs
  set dya := (a.2 - g.2).natAbs
  set dxb := (b.1 - g.1).natAbs
  set dyb := (b.2 - g.2).natAbs
  interval_cases hx' : (a.1 - b.1).natAbs
  · interval_cases hy' : (a.2 - b.2).natAbs
    · -- no coordinate changed: contradicts `a ≠ b`
      exact absurd (Prod.ext (by omega) (by omega)) hne
    · -- cardinal step along y
      have hdiag : isDiagStep a b = false := by
        simp [isDiagStep, hx', hy']
      rw [hdiag, if_neg (by simp)]
      have h1 : octileDist dxa dya ≤ octileDist dxb (dyb + 1) :=
        octileDist_mono _ _ _ _ (by omega) (by omega)
      have h2 := octileDist_succ_right dxb dyb
      linarith
  · interval_cases hy' : (a.2 - b.2).natAbs
    · -- cardinal step along x
      have hdiag : isDiagStep a b = false := by
        simp [isDiagStep, hx', hy']
      rw [hdiag, if_neg (by simp)]
      have h1 : octileDist dxa dya ≤ octileDist (dxb + 1) dyb :=
        octileDist_mono _ _ _ _ (by omega) (by omega)
      have h2 := octileDist_succ_left dxb dyb
      linarith
    · -- diagonal step
      have hdiag : isDiagStep a b = true := by
        simp [isDiagStep, hx', hy']
      rw [hdiag, if_pos rfl]
      have h1 : octileDist dxa dya ≤ octileDist (dxb + 1) (dyb + 1) :=
        octileDist_mono _ _ _ _ (by omega) (by omega)
      have h2 := octileDist_succ_succ dxb dyb
      linarith

/-- On a grid with non-negative elevations and a non-negative multiplier,
the scaled octile heuristic under-estimates the cost of every walk to the
goal. -/
lemma heuristic_le_walkCost (G : GridModel) (goal : Cell)
    (hcs : 0 < G.cellSize) (hm : 0 ≤ G.multiplier)
    (helev : ∀ c, 0 ≤ G.elevation c) :
    ∀ p s, IsWalkFrom G p s goal → heuristic G.cellSize s goal ≤ walkCost G p := by
  intro p
  induction p with
  | nil => intro s h; simp [IsWalkFrom] at h
  | cons a rest ih =>
    intro s h
    obtain ⟨⟨hin, hchain⟩, hhead, hlast⟩ := h
    obtain rfl : a = s := by simpa using hhead
    cases rest with
    | nil =>
      -- single-cell walk: the cell is the goal, both sides are 0
      obtain rfl : a = goal := by simpa using hlast
      simp [walkCost, heuristic, octileDist_zero_zero]
    | cons b rest' =>
      have hstep : IsStep a b := hchain.rel_head
      have hwalk' : IsWalkFrom G (b :: rest') b goal := by
        refine ⟨⟨fun c hc => hin c (List.mem_cons_of_mem a hc), hchain.tail⟩,
          by simp, ?_⟩
        simpa [List.getLast?_cons_cons] using hlast
      have hIH := ih b hwalk'
      have hoct := octileDist_step a b goal hstep
      have hmov : movementCost (isDiagStep a b) G.cellSize ≤ stepCost G a b :=
        movementCost_le_edgeCost _ _ _ _ _ (helev b) hm
      have hscale :
          heuristic G.cellSize a goal ≤
            movementCost (isDiagStep a b) G.cellSize +
              heuristic G.cellSize b goal := by
        unfold heuristic movementCost
        have := mul_le_mul_of_nonneg_left hoct hcs.le
        calc G.cellSize * octileDist (a.1 - goal.1).natAbs (a.2 - goal.2).natAbs
            ≤ G.cellSize * ((if isDiagStep a b then Real.sqrt 2 else 1)
                + octileDist (b.1 - goal.1).natAbs (b.2 - goal.2).natAbs) := this
          _ = (if isDiagStep a b then Real.sqrt 2 else 1) * G.cellSize
                + G.cellSize
                  * octileDist (b.1 - goal.1).natAbs (b.2 - goal.2).natAbs := by
              ring
      have hcost : walkCost G (a :: b :: rest') =
          stepCost G a b + walkCost G (b :: rest') := rfl
      rw [hcost]
      linarith

/-! ## Boundary handler (docs/api-reference/grid-utilities.md)

Coordinate conversion between world and grid space, boundary validation,
and clamping.  World positions here are the two horizontal components
(X and Z); each axis clamps independently to `[0, dimension-1]`. -/

/-- Clamp one coordinate into `[0, dimension-1]`. -/
def clampAxis (dimension : ℕ) (x : ℤ) : ℤ :=
  min (max x 0) ((dimension : ℤ) - 1)

/-- `ClampToValidGrid`: clamp a grid position to valid boundaries,
per axis. -/
def clampToValidGrid (width height : ℕ) (p : Cell) : Cell :=
  (clampAxis width p.1, clampAxis height p.2)

/-- `IsValidGridPosition`: both coordinates within grid boundaries. -/
def IsValidGridPosition (width height : ℕ) (p : Cell) : Prop :=
  0 ≤ p.1 ∧ p.1 < (width : ℤ) ∧ 0 ≤ p.2 ∧ p.2 < (height : ℤ)

instance (w h : ℕ) (p : Cell) : Decidable (IsValidGridPosition w h p) := by
  unfold IsValidGridPosition; infer_instance

/-- World → grid: `gridX = floor((worldX - originX) / cellSize)`, and
likewise for the Z axis. -/
def worldToGrid (origin : ℚ × ℚ) (cellSize : ℚ) (wpos : ℚ × ℚ) : Cell :=
  (⌊(wpos.1 - origin.1) / cellSize⌋, ⌊(wpos.2 - origin.2) / cellSize⌋)

/-- Grid → world (cell center):
`worldX = originX + (gridX + 0.5) * cellSize`, likewise for Z. -/
def gridToWorld (origin : ℚ × ℚ) (cellSize : ℚ) (g : Cell) : ℚ × ℚ :=
  (origin.1 + ((g.1 : ℚ) + 1/2) * cellSize,
   origin.2 + ((g.2 : ℚ) + 1/2) * cellSize)

/-- A world position is in bounds when its cell is a valid grid
position. -/
def WorldInBounds (origin : ℚ × ℚ) (cellSize : ℚ) (width height : ℕ)
    (wpos : ℚ × ℚ) : Prop :=
  IsValidGridPosition width height (worldToGrid origin cellSize wpos)

instance (origin : ℚ × ℚ) (cellSize : ℚ) (w h : ℕ) (wpos : ℚ × ℚ) :
    Decidable (WorldInBounds origin cellSize w h wpos) := by
  unfold WorldInBounds; infer_instance

lemma axis_roundtrip (o cs x : ℚ) (hcs : 0 < cs) :
    |o + ((⌊(x - o) / cs⌋ : ℚ) + 1/2) * cs - x| ≤ cs / 2 := by
  set q := (x - o) / cs with hqdef
  have h1 : (⌊q⌋ : ℚ) ≤ q := Int.floor_le q
  have h2 : q < ⌊q⌋ + 1 := Int.lt_floor_add_one q
  have hq : q * cs = x - o := div_mul_cancel₀ _ (ne_of_gt hcs)
  rw [abs_le]
  constructor
  · nlinarith [mul_le_mul_of_nonneg_right h2.le hcs.le]
  · nlinarith [mul_le_mul_of_nonneg_right h1 hcs.le]

/-! ## Search engine

Modelled from the spec: the repository documents the A* search engine
(reset/seed/loop/reconstruction, closed-node monotonicity, the
corner-cutting rule for diagonal neighbors, and the iteration cap) but
does not ship its implementation, so the engine below follows the
documented algorithm.  Costs use `ℚ` with the documentation's decimal
constants (`1.414` for the diagonal weight, `0.414` for the octile
coefficient) so the search is executable. -/

/-- Search-time grid: configuration, origin and elevation samples over
`ℚ`. -/
structure SearchGrid where
  width : ℕ
  height : ℕ
  cellSize : ℚ
  multiplier : ℚ
  origin : ℚ × ℚ
  elevation : Cell → ℚ

/-- Boolean in-bounds test. -/
def SearchGrid.inB (g : SearchGrid) (c : Cell) : Bool :=
  decide (0 ≤ c.1 ∧ c.1 < (g.width : ℤ) ∧ 0 ≤ c.2 ∧ c.2 < (g.height : ℤ))

/-- The eight neighbor offsets of 8-directional movement. -/
def neighborOffsets : List (ℤ × ℤ) :=
  [(-1, -1), (-1, 0), (-1, 1), (0, -1), (0, 1), (1, -1), (1, 0), (1, 1)]

/-- An offset is diagonal when both components are non-zero. -/
def isDiagOffset (d : ℤ × ℤ) : Bool :=
  decide (d.1 ≠ 0) && decide (d.2 ≠ 0)

/-- Corner-cutting rule: a neighbor reached by offset `d` from `n` may be
expanded only if it is in bounds and, for a diagonal offset, at least one
of the two flanking cardinal cells is in bounds (all cells are walkable by
default, so walkability adds no further constraint). -/
def stepAllowedB (g : SearchGrid) (n : Cell) (d : ℤ × ℤ) : Bool :=
  g.inB (n.1 + d.1, n.2 + d.2) &&
    (!(isDiagOffset d) || (g.inB (n.1 + d.1, n.2) || g.inB (n.1, n.2 + d.2)))

/-- Edge cost over `ℚ`: movement + altitude + climb + slope, with the
documented decimal constants. -/
def edgeCostQ (g : SearchGrid) (a b : Cell) (diag : Bool) : ℚ :=
  (if diag then 1.414 else 1) * g.cellSize
    + g.elevation b * g.multiplier * (1/100)
    + (if 0 < g.elevation b - g.elevation a then
        (g.elevation b - g.elevation a) * g.multiplier * (1/2) else 0)
    + |g.elevation b - g.elevation a| * g.multiplier * (1/10)

/-- Octile heuristic over `ℚ`, scaled by the cell size. -/
def octileQ (g : SearchGrid) (c t : Cell) : ℚ :=
  (max (((c.1 - t.1).natAbs : ℚ)) (((c.2 - t.2).natAbs : ℚ))
    + 0.414 * min (((c.1 - t.1).natAbs : ℚ)) (((c.2 - t.2).natAbs : ℚ)))
    * g.cellSize

/-- Node membership tag: `unvisited → opened → closed`. -/
inductive NodeStatus where
  | unvisited
  | opened
  | closed
deriving DecidableEq

/-- Working search state: per-node g-score, parent pointer and status,
plus the open list.  Unvisited nodes' g-scores are never read (the spec's
`g = ∞` reset), so they carry a dummy `0`. -/
structure SearchState where
  gScore : Cell → ℚ
  parent : Cell → Option Cell
  status : Cell → NodeStatus
  openList : List Cell

/-- f-score: g + h. -/
def fScore (g : SearchGrid) (goal : Cell) (st : SearchState) (c : Cell) : ℚ :=
  st.gScore c + octileQ g c goal

/-- Open-set ordering: lowest f wins, ties broken by lower h. -/
def betterNode (g : SearchGrid) (goal : Cell) (st : SearchState)
    (a b : Cell) : Bool :=
  decide (fScore g goal st a < fScore g goal st b) ||
    (decide (fScore g goal st a = fScore g goal st b) &&
      decide (octileQ g a goal < octileQ g b goal))

/-- Pop candidate: the best node of the open list (first-seen wins exact
ties, keeping the search deterministic). -/
def pickBest (g : SearchGrid) (goal : Cell) (st : SearchState) :
    List Cell → Option Cell
  | [] => none
  | c :: rest =>
      some (rest.foldl (fun best n => if betterNode g goal st n best then n
        else best) c)

/-- Relax one neighbor of `n` (offset `d`): skip disallowed or closed
neighbors; otherwise, if unvisited or improved, record g/parent, mark
open and (re)insert into the open list. -/
def relaxNeighbor (g : SearchGrid) (n : Cell) (st : SearchState)
    (d : ℤ × ℤ) : SearchState :=
  let nb : Cell := (n.1 + d.1, n.2 + d.2)
  if stepAllowedB g n d then
    if st.status nb = NodeStatus.closed then st
    else
      let tentative := st.gScore n + edgeCostQ g n nb (isDiagOffset d)
      if st.status nb = NodeStatus.unvisited ∨ tentative < st.gScore nb then
        { gScore := fun c => if c = nb then tentative else st.gScore c
          parent := fun c => if c = nb then some n else st.parent c
          status := fun c => if c = nb then NodeStatus.opened else st.status c
          openList := if st.status nb = NodeStatus.opened then st.openList
            else nb :: st.openList }
      else st
  else st

/-- Expand a popped node: relax its eight neighbors. -/
def expandNode (g : SearchGrid) (n : Cell) (st : SearchState) : SearchState :=
  neighborOffsets.foldl (relaxNeighbor g n) st

/-- Close a popped node and drop it from the open list. -/
def closeNode (n : Cell) (st : SearchState) : SearchState :=
  { gScore := st.gScore
    parent := st.parent
    status := fun c => if c = n then NodeStatus.closed else st.status c
    openList := st.openList.erase n }

/-- Reconstruction: walk parent pointers from the goal, prepending, which
yields the start→goal order. -/
def buildPath (parent : Cell → Option Cell) :
    ℕ → Cell → List Cell → List Cell
  | 0, c, acc => c :: acc
  | fuel + 1, c, acc =>
      match parent c with
      | none => c :: acc
      | some p => buildPath parent fuel p (c :: acc)

/-- Main loop: pop the best open node; reconstruct on goal, otherwise
close and expand; fail on an empty open set or when the iteration cap
runs out. -/
def searchLoop (g : SearchGrid) (goal : Cell) :
    ℕ → SearchState → Option (List Cell)
  | 0, _ => none
  | fuel + 1, st =>
      match pickBest g goal st st.openList with
      | none => none
      | some n =>
          if n = goal then
            some (buildPath st.parent (g.width * g.height) goal [])
          else searchLoop g goal fuel (expandNode g n (closeNode n st))

/-- Iteration safety cap, fixed per configuration. -/
def maxIterations (g : SearchGrid) : ℕ := g.width * g.height + 1

/-- Seeded initial state: only the start node is open, with `g = 0`. -/
def initialState (start : Cell) : SearchState :=
  { gScore := fun _ => 0
    parent := fun _ => none
    status := fun c => if c = start then NodeStatus.opened
      else NodeStatus.unvisited
    openList := [start] }

/-- Full search: validate endpoints, seed, loop. -/
def findPath (g : SearchGrid) (start goal : Cell) : Option (List Cell) :=
  if g.inB start && g.inB goal then
    searchLoop g goal (maxIterations g) (initialState start)
  else none

/-! ### Corner-cutting invariant -/

/-- An edge the engine may create: some admissible neighbor offset leads
from `p` to `c`. -/
def AllowedEdge (g : SearchGrid) (p c : Cell) : Prop :=
  ∃ d ∈ neighborOffsets, c = (p.1 + d.1, p.2 + d.2) ∧
    stepAllowedB g p d = true

/-- Corner-safety of one path step: a diagonal step has at least one
flanking cardinal cell in bounds. -/
def CornerSafe (g : SearchGrid) (a b : Cell) : Prop :=
  isDiagStep a b = true → g.inB (b.1, a.2) = true ∨ g.inB (a.1, b.2) = true

/-- Parent pointers only ever record allowed expansions. -/
def ParentInv (g : SearchGrid) (st : SearchState) : Prop :=
  ∀ c p, st.parent c = some p → AllowedEdge g p c

lemma relaxNeighbor_parentInv (g : SearchGrid) (n : Cell) (st : SearchState)
    (d : ℤ × ℤ) (hd : d ∈ neighborOffsets) (h : ParentInv g st) :
    ParentInv g (relaxNeighbor g n st d) := by
  unfold relaxNeighbor
  split
  case isFalse => exact h
  case isTrue hallow =>
    dsimp only
    split
    case isTrue => exact h
    case isFalse =>
      split
      case isFalse => exact h
      case isTrue =>
        intro c p hcp
        dsimp only at hcp
        by_cases hc : c = (n.1 + d.1, n.2 + d.2)
        · rw [if_pos hc] at hcp
          obtain rfl : n = p := by injection hcp
          exact hc ▸ ⟨d, hd, rfl, hallow⟩
        · rw [if_neg hc] at hcp
          exact h c p hcp

lemma expandNode_parentInv (g : SearchGrid) (n : Cell) (st : SearchState)
    (h : ParentInv g st) : ParentInv g (expandNode g n st) := by
  unfold expandNode
  have : ∀ (l : List (ℤ × ℤ)), (∀ d ∈ l, d ∈ neighborOffsets) →
      ∀ s, ParentInv g s → ParentInv g (l.foldl (relaxNeighbor g n) s) := by
    intro l
    induction l with
    | nil => intro _ s hs; exact hs
    | cons d rest ih =>
      intro hmem s hs
      exact ih (fun x hx => hmem x (List.mem_cons_of_mem d hx))
        (relaxNeighbor g n s d) (relaxNeighbor_parentInv g n s d
          (hmem d (List.mem_cons_self d rest)) hs)
  exact this neighborOffsets (fun _ hx => hx) st h

lemma closeNode_parentInv (g : SearchGrid) (n : Cell) (st : SearchState)
    (h : ParentInv g st) : ParentInv g (closeNode n st) := h

lemma buildPath_chain (g : SearchGrid) (parent : Cell → Option Cell)
    (hinv : ∀ c p, parent c = some p → AllowedEdge g p c) :
    ∀ fuel c acc, List.Chain' (AllowedEdge g) (c :: acc) →
      List.Chain' (AllowedEdge g) (buildPath parent fuel c acc) := by
  intro fuel
  induction fuel with
  | zero => intro c acc hch; exact hch
  | succ fuel ih =>
    intro c acc hch
    unfold buildPath
    cases hp : parent c with
    | none => exact hch
    | some p =>
      exact ih p (c :: acc) (List.chain'_cons.mpr ⟨hinv c p hp, hch⟩)

lemma searchLoop_chain (g : SearchGrid) (goal : Cell) :
    ∀ fuel st, ParentInv g st → ∀ path,
      searchLoop g goal fuel st = some path →
        List.Chain' (AllowedEdge g) path := by
  intro fuel
  induction fuel with
  | zero => intro st _ path hpath; simp [searchLoop] at hpath
  | succ fuel ih =>
    intro st hinv path hpath
    unfold searchLoop at hpath
    cases hpick : pickBest g goal st st.openList with
    | none => rw [hpick] at hpath; simp at hpath
    | some n =>
      rw [hpick] at hpath
      dsimp only at hpath
      by_cases hgoal : n = goal
      · rw [if_pos hgoal] at hpath
        obtain rfl : buildPath st.parent (g.width * g.height) goal [] = path :=
          by injection hpath
        exact buildPath_chain g st.parent hinv _ goal []
          (List.chain'_singleton goal)
      · rw [if_neg hgoal] at hpath
        exact ih (expandNode g n (closeNode n st))
          (expandNode_parentInv g n _ (closeNode_parentInv g n st hinv))
          path hpath

lemma allowedEdge_cornerSafe (g : SearchGrid) (a b : Cell)
    (h : AllowedEdge g a b) : CornerSafe g a b := by
  obtain ⟨d, _, rfl, hallow⟩ := h
  intro hdiag
  unfold stepAllowedB at hallow
  rw [Bool.and_eq_true] at hallow
  have hdo : isDiagOffset d = true := by
    unfold isDiagStep at hdiag
    unfold isDiagOffset
    rw [Bool.and_eq_true, decide_eq_true_iff, decide_eq_true_iff]
    rw [decide_eq_true_iff] at hdiag
    constructor
    · intro hz; rw [hz] at hdiag; simp at hdiag
    · intro hz; rw [hz] at hdiag; simp at hdiag
  have := hallow.2
  rw [hdo] at this
  simp only [Bool.not_true, Bool.false_or, Bool.or_eq_true] at this
  exact this

/-! ### Optimality of the engine's returned paths

With a positive cell size, a non-negative multiplier and non-negative
elevations, the engine's `0.414` octile heuristic is consistent with its
`1.414`-weighted cost model, and the search is proved to return
cost-optimal paths among all walks its movement rules allow. -/

/-- Non-degeneracy of a search grid: positive cell size, non-negative
multiplier, non-negative elevations. -/
def GridNonneg (g : SearchGrid) : Prop :=
  0 < g.cellSize ∧ 0 ≤ g.multiplier ∧ ∀ c, 0 ≤ g.elevation c

/-- Cost of the engine's move from `a` to `b` (diagonality read off the
two cells). -/
def stepCostQ (g : SearchGrid) (a b : Cell) : ℚ :=
  edgeCostQ g a b (isDiagStep a b)

/-- Total engine cost of a walk. -/
def walkCostQ (g : SearchGrid) : List Cell → ℚ
  | a :: b :: rest => stepCostQ g a b + walkCostQ g (b :: rest)
  | _ => 0

/-- A walk in the engine's search graph: from `s` to `t` along allowed
edges. -/
def QWalk (g : SearchGrid) (q : List Cell) (s t : Cell) : Prop :=
  q.head? = some s ∧ q.getLast? = some t ∧ List.Chain' (AllowedEdge g) q

/-- The octile form used by the engine, on grid distances. -/
def octQ (a b : ℕ) : ℚ :=
  max (a : ℚ) (b : ℚ) + 0.414 * min (a : ℚ) (b : ℚ)

lemma octileQ_eq_octQ (g : SearchGrid) (c t : Cell) :
    octileQ g c t =
      octQ (c.1 - t.1).natAbs (c.2 - t.2).natAbs * g.cellSize := rfl

lemma octQ_comm (a b : ℕ) : octQ a b = octQ b a := by
  unfold octQ
  rw [max_comm, min_comm]

lemma octQ_mono_left {a a' : ℕ} (b : ℕ) (h : a ≤ a') :
    octQ a b ≤ octQ a' b := by
  unfold octQ
  have hc : (a : ℚ) ≤ (a' : ℚ) := by exact_mod_cast h
  have h1 : max (a : ℚ) b ≤ max (a' : ℚ) b := max_le_max hc le_rfl
  have h2 : min (a : ℚ) b ≤ min (a' : ℚ) b := min_le_min hc le_rfl
  have h3 : (0:ℚ) ≤ 0.414 := by norm_num
  nlinarith

lemma octQ_mono (a a' b b' : ℕ) (ha : a ≤ a') (hb : b ≤ b') :
    octQ a b ≤ octQ a' b' := by
  calc octQ a b ≤ octQ a' b := octQ_mono_left b ha
    _ = octQ b a' := octQ_comm a' b
    _ ≤ octQ b' a' := octQ_mono_left a' hb
    _ = octQ a' b' := octQ_comm b' a'

lemma octQ_succ_left (a b : ℕ) : octQ (a + 1) b ≤ octQ a b + 1 := by
  unfold octQ
  rcases le_or_lt (a + 1) b with h | h
  · have hab : a ≤ b := Nat.le_of_succ_le h
    have h1 : max ((a:ℚ) + 1) b = b := by
      rw [max_eq_right]; exact_mod_cast h
    have h2 : min ((a:ℚ) + 1) b = (a:ℚ) + 1 := by
      rw [min_eq_left]; exact_mod_cast h
    have h3 : max (a:ℚ) b = b := by
      rw [max_eq_right]; exact_mod_cast hab
    have h4 : min (a:ℚ) b = a := by
      rw [min_eq_left]; exact_mod_cast hab
    push_cast
    rw [h1, h2, h3, h4]
    linarith
  · have hba : b ≤ a := Nat.lt_succ_iff.mp h
    have hba' : (b:ℚ) ≤ a := by exact_mod_cast hba
    have h1 : max ((a:ℚ) + 1) b = (a:ℚ) + 1 := by
      rw [max_eq_left]; linarith
    have h2 : min ((a:ℚ) + 1) b = b := by
      rw [min_eq_right]; linarith
    have h3 : max (a:ℚ) b = a := by
      rw [max_eq_left]; exact_mod_cast hba
    have h4 : min (a:ℚ) b = b := by
      rw [min_eq_right]; exact_mod_cast hba
    push_cast
    rw [h1, h2, h3, h4]
    linarith

lemma octQ_succ_right (a b : ℕ) : octQ a (b + 1) ≤ octQ a b + 1 := by
  rw [octQ_comm, octQ_comm a b]
  exact octQ_succ_left b a

lemma octQ_succ_succ (a b : ℕ) :
    octQ (a + 1) (b + 1) = octQ a b + 1.414 := by
  unfold octQ
  have h1 : max ((a:ℕ) + 1) (b + 1) = max a b + 1 := Nat.succ_max_succ a b
  have h2 : min ((a:ℕ) + 1) (b + 1) = min a b + 1 := Nat.succ_min_succ a b
  push_cast
  rw [show max ((a:ℚ) + 1) ((b:ℚ) + 1) = max (a:ℚ) b + 1 by
        rw [← Nat.cast_max]; exact_mod_cast congrArg Nat.cast h1,
      show min ((a:ℚ) + 1) ((b:ℚ) + 1) = min (a:ℚ) b + 1 by
        rw [← Nat.cast_min]; exact_mod_cast congrArg Nat.cast h2]
  ring

/-- Engine octile per-step consistency on grid displacements: one move
decreases it by at most the move's flat weight. -/
lemma octQ_cell_step (a b t : Cell) (hstep : IsStep a b) :
    octQ (a.1 - t.1).natAbs (a.2 - t.2).natAbs ≤
      (if isDiagStep a b then (1.414:ℚ) else 1)
        + octQ (b.1 - t.1).natAbs (b.2 - t.2).natAbs := by
  obtain ⟨hne, hx, hy⟩ := hstep
  have hxtri : (a.1 - t.1).natAbs ≤ (b.1 - t.1).natAbs + (a.1 - b.1).natAbs := by
    have : a.1 - t.1 = (b.1 - t.1) + (a.1 - b.1) := by ring
    rw [this]
    exact le_trans (Int.natAbs_add_le _ _) (by omega)
  have hytri : (a.2 - t.2).natAbs ≤ (b.2 - t.2).natAbs + (a.2 - b.2).natAbs := by
    have : a.2 - t.2 = (b.2 - t.2) + (a.2 - b.2) := by ring
    rw [this]
    exact le_trans (Int.natAbs_add_le _ _) (by omega)
  set dxa := (a.1 - t.1).natAbs
  set dya := (a.2 - t.2).natAbs
  set dxb := (b.1 - t.1).natAbs
  set dyb := (b.2 - t.2).natAbs
  interval_cases hx' : (a.1 - b.1).natAbs
  · interval_cases hy' : (a.2 - b.2).natAbs
    · exact absurd (Prod.ext (by omega) (by omega)) hne
    · have hdiag : isDiagStep a b = false := by
        simp [isDiagStep, hx', hy']
      rw [hdiag, if_neg (by simp)]
      have h1 : octQ dxa dya ≤ octQ dxb (dyb + 1) :=
        octQ_mono _ _ _ _ (by omega) (by omega)
      have h2 := octQ_succ_right dxb dyb
      linarith
  · interval_cases hy' : (a.2 - b.2).natAbs
    · have hdiag : isDiagStep a b = false := by
        simp [isDiagStep, hx', hy']
      rw [hdiag, if_neg (by simp)]
      have h1 : octQ dxa dya ≤ octQ (dxb + 1) dyb :=
        octQ_mono _ _ _ _ (by omega) (by omega)
      have h2 := octQ_succ_left dxb dyb
      linarith
    · have hdiag : isDiagStep a b = true := by
        simp [isDiagStep, hx', hy']
      rw [hdiag, if_pos rfl]
      have h1 : octQ dxa dya ≤ octQ (dxb + 1) (dyb + 1) :=
        octQ_mono _ _ _ _ (by omega) (by omega)
      have h2 := octQ_succ_succ dxb dyb
      linarith

/-- The eight offsets move each coordinate by at most one cell and are
non-zero. -/
lemma neighborOffsets_spec :
    ∀ d ∈ neighborOffsets,
      d.1.natAbs ≤ 1 ∧ d.2.natAbs ≤ 1 ∧ d ≠ ((0:ℤ), (0:ℤ)) := by
  decide

/-- For a one-cell offset, diagonality of the offset agrees with
diagonality of the resulting cell pair. -/
lemma isDiagOffset_eq_isDiagStep (n : Cell) (d : ℤ × ℤ)
    (h1 : d.1.natAbs ≤ 1) (h2 : d.2.natAbs ≤ 1) :
    isDiagOffset d = isDiagStep n (n.1 + d.1, n.2 + d.2) := by
  unfold isDiagOffset isDiagStep
  rw [show n.1 - (n.1 + d.1) = -d.1 by ring, show n.2 - (n.2 + d.2) = -d.2 by
    ring, Int.natAbs_neg, Int.natAbs_neg]
  have hiff : (d.1 ≠ 0 ∧ d.2 ≠ 0) ↔ (d.1.natAbs = 1 ∧ d.2.natAbs = 1) := by
    omega
  calc (decide (d.1 ≠ 0) && decide (d.2 ≠ 0))
      = decide (d.1 ≠ 0 ∧ d.2 ≠ 0) := by
        by_cases hd1 : d.1 = 0 <;> by_cases hd2 : d.2 = 0 <;> simp [hd1, hd2]
    _ = decide (d.1.natAbs = 1 ∧ d.2.natAbs = 1) := decide_eq_decide.mpr hiff

/-- An allowed edge is a one-cell step. -/
lemma allowedEdge_isStep (g : SearchGrid) (a b : Cell)
    (h : AllowedEdge g a b) : IsStep a b := by
  obtain ⟨d, hd, rfl, -⟩ := h
  obtain ⟨h1, h2, h0⟩ := neighborOffsets_spec d hd
  refine ⟨?_, by simp; omega, by simp; omega⟩
  intro hc
  rw [Prod.ext_iff] at hc
  simp at hc
  exact h0 (Prod.ext (by omega) (by omega))

/-- An allowed edge's engine cost matches the relaxation's
`isDiagOffset`-weighted cost. -/
lemma stepCostQ_offset (g : SearchGrid) (n : Cell) (d : ℤ × ℤ)
    (h1 : d.1.natAbs ≤ 1) (h2 : d.2.natAbs ≤ 1) :
    edgeCostQ g n (n.1 + d.1, n.2 + d.2) (isDiagOffset d) =
      stepCostQ g n (n.1 + d.1, n.2 + d.2) := by
  unfold stepCostQ
  rw [isDiagOffset_eq_isDiagStep n d h1 h2]

/-- On a non-degenerate grid the movement part bounds the engine edge
cost from below. -/
lemma movement_le_edgeCostQ (g : SearchGrid) (hg : GridNonneg g)
    (a b : Cell) (diag : Bool) :
    (if diag then (1.414:ℚ) else 1) * g.cellSize ≤ edgeCostQ g a b diag := by
  obtain ⟨-, hm, helev⟩ := hg
  unfold edgeCostQ
  have h1 : 0 ≤ g.elevation b * g.multiplier * (1/100) := by
    have := helev b; positivity
  have h2 : (0:ℚ) ≤ (if 0 < g.elevation b - g.elevation a then
      (g.elevation b - g.elevation a) * g.multiplier * (1/2) else 0) := by
    split
    · rename_i h; nlinarith
    · exact le_refl 0
  have h3 : 0 ≤ |g.elevation b - g.elevation a| * g.multiplier * (1/10) := by
    positivity
  linarith

/-- On a non-degenerate grid every engine step costs strictly more than
zero. -/
lemma stepCostQ_pos (g : SearchGrid) (hg : GridNonneg g) (a b : Cell) :
    0 < stepCostQ g a b := by
  have hmov := movement_le_edgeCostQ g hg a b (isDiagStep a b)
  have hcs := hg.1
  have : (0:ℚ) < (if isDiagStep a b then (1.414:ℚ) else 1) * g.cellSize := by
    split <;> nlinarith
  unfold stepCostQ
  linarith

/-- Consistency of the engine heuristic: along an allowed edge it
decreases by at most the edge's cost. -/
lemma octileQ_consistent (g : SearchGrid) (hg : GridNonneg g)
    (a b t : Cell) (h : AllowedEdge g a b) :
    octileQ g a t ≤ stepCostQ g a b + octileQ g b t := by
  have hstep := allowedEdge_isStep g a b h
  have hoct := octQ_cell_step a b t hstep
  have hmov := movement_le_edgeCostQ g hg a b (isDiagStep a b)
  have hcs : (0:ℚ) ≤ g.cellSize := hg.1.le
  rw [octileQ_eq_octQ, octileQ_eq_octQ]
  have := mul_le_mul_of_nonneg_right hoct hcs
  unfold stepCostQ
  nlinarith [hoct, hmov]

/-- Engine walk costs are non-negative on a non-degenerate grid. -/
lemma walkCostQ_nonneg (g : SearchGrid) (hg : GridNonneg g) :
    ∀ q : List Cell, 0 ≤ walkCostQ g q := by
  intro q
  match q with
  | [] => exact le_refl 0
  | [a] => exact le_refl 0
  | a :: b :: rest =>
    have h1 := stepCostQ_pos g hg a b
    have h2 := walkCostQ_nonneg g hg (b :: rest)
    show 0 ≤ stepCostQ g a b + walkCostQ g (b :: rest)
    linarith

/-- Appending one more step adds its cost. -/
lemma walkCostQ_append_singleton (g : SearchGrid) :
    ∀ (q : List Cell) (w u : Cell), q.getLast? = some w →
      walkCostQ g (q ++ [u]) = walkCostQ g q + stepCostQ g w u := by
  intro q
  induction q with
  | nil => intro w u hw; simp at hw
  | cons a rest ih =>
    intro w u hw
    cases rest with
    | nil =>
      obtain rfl : a = w := by simpa using hw
      show stepCostQ g a u + walkCostQ g [u] = walkCostQ g [a] + stepCostQ g a u
      show stepCostQ g a u + 0 = 0 + stepCostQ g a u
      ring
    | cons b rest' =>
      have hw' : (b :: rest').getLast? = some w := by
        simpa [List.getLast?_cons_cons] using hw
      show stepCostQ g a b + walkCostQ g ((b :: rest') ++ [u]) =
        stepCostQ g a b + walkCostQ g (b :: rest') + stepCostQ g w u
      rw [ih w u hw']
      ring

/-- The A* loop invariant on a search toward `e` from `start`: the open
list mirrors the `opened` status; touched nodes are in bounds; the start
node is seeded with `g = 0` and is the only parentless touched node;
parent edges record allowed expansions with exact costs; closed nodes
carry the optimal cost of reaching them and have fully relaxed neighbors;
and (consistency order) every closed node's f-score is at most every open
node's. -/
structure SearchInv (g : SearchGrid) (e start : Cell) (st : SearchState) :
    Prop where
  openMem : ∀ c, c ∈ st.openList ↔ st.status c = NodeStatus.opened
  openNodup : st.openList.Nodup
  inb : ∀ c, st.status c ≠ NodeStatus.unvisited → g.inB c = true
  startV : st.status start ≠ NodeStatus.unvisited
  startG : st.gScore start = 0
  startP : st.parent start = none
  root : ∀ c, st.status c ≠ NodeStatus.unvisited → st.parent c = none →
    c = start
  parentE : ∀ c p, st.parent c = some p →
    st.status p = NodeStatus.closed ∧ st.status c ≠ NodeStatus.unvisited ∧
      AllowedEdge g p c ∧ st.gScore c = st.gScore p + stepCostQ g p c
  gnn : ∀ c, st.status c ≠ NodeStatus.unvisited → 0 ≤ st.gScore c
  closedOpt : ∀ c, st.status c = NodeStatus.closed →
    ∀ q, QWalk g q start c → st.gScore c ≤ walkCostQ g q
  closedExp : ∀ c, st.status c = NodeStatus.closed →
    ∀ p, AllowedEdge g c p → st.status p ≠ NodeStatus.unvisited ∧
      st.gScore p ≤ st.gScore c + stepCostQ g c p
  fOrder : ∀ c o, st.status c = NodeStatus.closed →
    st.status o = NodeStatus.opened → fScore g e st c ≤ fScore g e st o

lemma betterNode_le (g : SearchGrid) (e : Cell) (st : SearchState)
    {a b : Cell} (h : betterNode g e st a b = true) :
    fScore g e st a ≤ fScore g e st b := by
  unfold betterNode at h
  rw [Bool.or_eq_true, Bool.and_eq_true] at h
  rcases h with h | ⟨h, -⟩
  · exact (le_of_lt (by simpa using h))
  · exact le_of_eq (by simpa using h)

lemma betterNode_ge (g : SearchGrid) (e : Cell) (st : SearchState)
    {a b : Cell} (h : betterNode g e st a b = false) :
    fScore g e st b ≤ fScore g e st a := by
  unfold betterNode at h
  rw [Bool.or_eq_false_iff] at h
  have := h.1
  rw [decide_eq_false_iff_not] at this
  exact le_of_not_lt this

lemma foldl_best (g : SearchGrid) (e : Cell) (st : SearchState) :
    ∀ (l : List Cell) (c : Cell),
      (l.foldl (fun best n => if betterNode g e st n best then n else best) c
          = c ∨
        l.foldl (fun best n => if betterNode g e st n best then n else best) c
          ∈ l)
      ∧ fScore g e st
          (l.foldl (fun best n => if betterNode g e st n best then n
            else best) c) ≤ fScore g e st c
      ∧ ∀ x ∈ l, fScore g e st
          (l.foldl (fun best n => if betterNode g e st n best then n
            else best) c) ≤ fScore g e st x := by
  intro l
  induction l with
  | nil => intro c; exact ⟨Or.inl rfl, le_refl _, by simp⟩
  | cons x rest ih =>
    intro c
    simp only [List.foldl_cons]
    obtain ⟨hmem, hle, hmin⟩ := ih (if betterNode g e st x c then x else c)
    have hcc : fScore g e st (if betterNode g e st x c then x else c) ≤
        fScore g e st c := by
      split
      case isTrue h => exact betterNode_le g e st h
      case isFalse h => exact le_refl _
    have hcx : fScore g e st (if betterNode g e st x c then x else c) ≤
        fScore g e st x := by
      split
      case isTrue h => exact le_refl _
      case isFalse h => exact betterNode_ge g e st (Bool.eq_false_iff.mpr h)
    refine ⟨?_, le_trans hle hcc, ?_⟩
    · rcases hmem with hmem | hmem
      · rw [hmem]
        split
        case isTrue => exact Or.inr (List.mem_cons_self x rest)
        case isFalse => exact Or.inl rfl
      · exact Or.inr (List.mem_cons_of_mem x hmem)
    · intro y hy
      rcases List.mem_cons.mp hy with rfl | hy
      · exact le_trans hle hcx
      · exact hmin y hy

lemma pickBest_spec (g : SearchGrid) (e : Cell) (st : SearchState)
    (l : List Cell) (n : Cell) (h : pickBest g e st l = some n) :
    n ∈ l ∧ ∀ x ∈ l, fScore g e st n ≤ fScore g e st x := by
  cases l with
  | nil => simp [pickBest] at h
  | cons c rest =>
    obtain rfl : rest.foldl
        (fun best m => if betterNode g e st m best then m else best) c = n :=
      by simpa [pickBest] using h
    obtain ⟨hmem, hle, hmin⟩ := foldl_best g e st rest c
    refine ⟨?_, ?_⟩
    · rcases hmem with hmem | hmem
      · rw [hmem]; exact List.mem_cons_self c rest
      · exact List.mem_cons_of_mem c hmem
    · intro x hx
      rcases List.mem_cons.mp hx with rfl | hx
      · exact hle
      · exact hmin x hx

/-- Frontier property: every engine walk from the start to a non-closed
cell is intercepted, cost-wise, by some open node. -/
lemma frontier (g : SearchGrid) (e start : Cell) (st : SearchState)
    (hg : GridNonneg g) (inv : SearchInv g e start st) :
    ∀ q u, QWalk g q start u → st.status u ≠ NodeStatus.closed →
      ∃ y, st.status y = NodeStatus.opened ∧
        fScore g e st y ≤ walkCostQ g q + octileQ g u e := by
  intro q
  induction q using List.reverseRecOn with
  | nil =>
    intro u hq hu
    obtain ⟨hh, -, -⟩ := hq
    simp at hh
  | append_singleton q₀ u ih =>
    intro v hq hv
    obtain rfl : u = v := by
      obtain ⟨-, hl, -⟩ := hq
      rw [List.getLast?_concat] at hl
      injection hl with hl
    have hu : st.status u ≠ NodeStatus.closed := hv
    obtain ⟨hh, hl, hch⟩ := hq
    cases q₀ with
    | nil =>
      obtain rfl : start = u := by simpa using hh.symm
      have hop : st.status start = NodeStatus.opened := by
        cases hst : st.status start
        · exact absurd hst inv.startV
        · rfl
        · exact absurd hst hu
      refine ⟨start, hop, ?_⟩
      unfold fScore
      rw [inv.startG]
      show (0:ℚ) + octileQ g start e ≤ walkCostQ g [start] + octileQ g start e
      show (0:ℚ) + octileQ g start e ≤ 0 + octileQ g start e
      exact le_refl _
    | cons a q₀' =>
      have hh1 : (a :: q₀').head? = some start := by
        simpa using hh
      cases hw : (a :: q₀').getLast? with
      | none => simp at hw
      | some w =>
        rw [List.chain'_append] at hch
        obtain ⟨hch1, -, hedge⟩ := hch
        have hwu : AllowedEdge g w u := by
          apply hedge w _ u
          · simp
          · simpa using hw
        have hq₀ : QWalk g (a :: q₀') start w := ⟨hh1, hw, hch1⟩
        have hcost : walkCostQ g ((a :: q₀') ++ [u]) =
            walkCostQ g (a :: q₀') + stepCostQ g w u :=
          walkCostQ_append_singleton g (a :: q₀') w u hw
        cases hsw : st.status w with
        | closed =>
          obtain ⟨hnv, hgu⟩ := inv.closedExp w hsw u hwu
          have hgw := inv.closedOpt w hsw (a :: q₀') hq₀
          have hop : st.status u = NodeStatus.opened := by
            cases hst : st.status u
            · exact absurd hst hnv
            · rfl
            · exact absurd hst hu
          refine ⟨u, hop, ?_⟩
          unfold fScore
          rw [hcost]
          linarith
        | unvisited =>
          obtain ⟨y, hy, hfy⟩ := ih w hq₀ (by rw [hsw]; intro h; cases h)
          have hcons := octileQ_consistent g hg w u e hwu
          refine ⟨y, hy, ?_⟩
          rw [hcost]
          linarith
        | opened =>
          obtain ⟨y, hy, hfy⟩ := ih w hq₀ (by rw [hsw]; intro h; cases h)
          have hcons := octileQ_consistent g hg w u e hwu
          refine ⟨y, hy, ?_⟩
          rw [hcost]
          linarith

/-- The popped node's g-score is a lower bound on the cost of every walk
reaching it. -/
lemma popped_optimal (g : SearchGrid) (e start : Cell) (st : SearchState)
    (hg : GridNonneg g) (inv : SearchInv g e start st) {n : Cell}
    (hpick : pickBest g e st st.openList = some n) :
    ∀ q, QWalk g q start n → st.gScore n ≤ walkCostQ g q := by
  obtain ⟨hmem, hmin⟩ := pickBest_spec g e st st.openList n hpick
  have hn : st.status n = NodeStatus.opened := (inv.openMem n).mp hmem
  intro q hq
  have hnotc : st.status n ≠ NodeStatus.closed := by
    rw [hn]; intro h; cases h
  obtain ⟨y, hy, hfy⟩ := frontier g e start st hg inv q n hq hnotc
  have hyl : y ∈ st.openList := (inv.openMem y).mpr hy
  have hny := hmin y hyl
  unfold fScore at hny hfy
  linarith

/-- The invariant carried while the popped node `n`'s neighbors are
relaxed: the searcher invariant's fields, with closed-node expansion
restricted to previously closed nodes, plus: `n` is closed with maximal
f-score among closed nodes, and every neighbor offset already processed
(not in `rest`) has been relaxed. -/
structure ExpandInv (g : SearchGrid) (e start n : Cell)
    (rest : List (ℤ × ℤ)) (st : SearchState) : Prop where
  openMem : ∀ c, c ∈ st.openList ↔ st.status c = NodeStatus.opened
  openNodup : st.openList.Nodup
  inb : ∀ c, st.status c ≠ NodeStatus.unvisited → g.inB c = true
  startV : st.status start ≠ NodeStatus.unvisited
  startG : st.gScore start = 0
  startP : st.parent start = none
  root : ∀ c, st.status c ≠ NodeStatus.unvisited → st.parent c = none →
    c = start
  parentE : ∀ c p, st.parent c = some p →
    st.status p = NodeStatus.closed ∧ st.status c ≠ NodeStatus.unvisited ∧
      AllowedEdge g p c ∧ st.gScore c = st.gScore p + stepCostQ g p c
  gnn : ∀ c, st.status c ≠ NodeStatus.unvisited → 0 ≤ st.gScore c
  closedOpt : ∀ c, st.status c = NodeStatus.closed →
    ∀ q, QWalk g q start c → st.gScore c ≤ walkCostQ g q
  closedExpOld : ∀ c, st.status c = NodeStatus.closed → c ≠ n →
    ∀ p, AllowedEdge g c p → st.status p ≠ NodeStatus.unvisited ∧
      st.gScore p ≤ st.gScore c + stepCostQ g c p
  fOrder : ∀ c o, st.status c = NodeStatus.closed →
    st.status o = NodeStatus.opened → fScore g e st c ≤ fScore g e st o
  nClosed : st.status n = NodeStatus.closed
  fOrderN : ∀ c, st.status c = NodeStatus.closed →
    fScore g e st c ≤ fScore g e st n
  relaxed : ∀ d ∈ neighborOffsets, d ∉ rest → stepAllowedB g n d = true →
    st.status (n.1 + d.1, n.2 + d.2) ≠ NodeStatus.unvisited ∧
      st.gScore (n.1 + d.1, n.2 + d.2) ≤
        st.gScore n + stepCostQ g n (n.1 + d.1, n.2 + d.2)

lemma relaxNeighbor_not_allowed (g : SearchGrid) (n : Cell)
    (st : SearchState) (d : ℤ × ℤ) (h : ¬ stepAllowedB g n d = true) :
    relaxNeighbor g n st d = st := by
  unfold relaxNeighbor
  rw [if_neg h]

lemma relaxNeighbor_closed (g : SearchGrid) (n : Cell) (st : SearchState)
    (d : ℤ × ℤ)
    (h2 : st.status (n.1 + d.1, n.2 + d.2) = NodeStatus.closed) :
    relaxNeighbor g n st d = st := by
  unfold relaxNeighbor
  split
  · dsimp only
    rw [if_pos h2]
  · rfl

lemma relaxNeighbor_no_improve (g : SearchGrid) (n : Cell)
    (st : SearchState) (d : ℤ × ℤ)
    (h3 : ¬ (st.status (n.1 + d.1, n.2 + d.2) = NodeStatus.unvisited ∨
      st.gScore n + edgeCostQ g n (n.1 + d.1, n.2 + d.2) (isDiagOffset d) <
        st.gScore (n.1 + d.1, n.2 + d.2))) :
    relaxNeighbor g n st d = st := by
  unfold relaxNeighbor
  by_cases hall : stepAllowedB g n d = true
  · rw [if_pos hall]
    dsimp only
    by_cases hcl : st.status (n.1 + d.1, n.2 + d.2) = NodeStatus.closed
    · rw [if_pos hcl]
    · rw [if_neg hcl, if_neg h3]
  · rw [if_neg hall]

lemma relaxNeighbor_update (g : SearchGrid) (n : Cell) (st : SearchState)
    (d : ℤ × ℤ) (h1 : stepAllowedB g n d = true)
    (h2 : st.status (n.1 + d.1, n.2 + d.2) ≠ NodeStatus.closed)
    (h3 : st.status (n.1 + d.1, n.2 + d.2) = NodeStatus.unvisited ∨
      st.gScore n + edgeCostQ g n (n.1 + d.1, n.2 + d.2) (isDiagOffset d) <
        st.gScore (n.1 + d.1, n.2 + d.2)) :
    relaxNeighbor g n st d =
      { gScore := fun c => if c = (n.1 + d.1, n.2 + d.2) then
          st.gScore n + edgeCostQ g n (n.1 + d.1, n.2 + d.2) (isDiagOffset d)
          else st.gScore c
        parent := fun c => if c = (n.1 + d.1, n.2 + d.2) then some n
          else st.parent c
        status := fun c => if c = (n.1 + d.1, n.2 + d.2) then
          NodeStatus.opened else st.status c
        openList := if st.status (n.1 + d.1, n.2 + d.2) = NodeStatus.opened
          then st.openList else (n.1 + d.1, n.2 + d.2) :: st.openList } := by
  unfold relaxNeighbor
  rw [if_pos h1]
  dsimp only
  rw [if_neg h2, if_pos h3]

/-- After closing the popped node, the expansion invariant holds with all
eight offsets still to process. -/
lemma expandInv_init (g : SearchGrid) (e start : Cell) (st : SearchState)
    (hg : GridNonneg g) (inv : SearchInv g e start st) (n : Cell)
    (hpick : pickBest g e st st.openList = some n) :
    ExpandInv g e start n neighborOffsets (closeNode n st) := by
  obtain ⟨hmem, hmin⟩ := pickBest_spec g e st st.openList n hpick
  have hnop : st.status n = NodeStatus.opened := (inv.openMem n).mp hmem
  have hstat : ∀ c, (closeNode n st).status c =
      if c = n then NodeStatus.closed else st.status c := fun _ => rfl
  have hnv : ∀ c, (closeNode n st).status c ≠ NodeStatus.unvisited →
      st.status c ≠ NodeStatus.unvisited := by
    intro c hc
    rw [hstat] at hc
    by_cases h : c = n
    · rw [h, hnop]; intro hx; cases hx
    · rwa [if_neg h] at hc
  have hfsame : ∀ c, fScore g e (closeNode n st) c = fScore g e st c :=
    fun _ => rfl
  refine
    { openMem := ?_, openNodup := inv.openNodup.erase n, inb := ?_
      startV := ?_, startG := inv.startG, startP := inv.startP
      root := ?_, parentE := ?_, gnn := ?_, closedOpt := ?_
      closedExpOld := ?_, fOrder := ?_, nClosed := ?_, fOrderN := ?_
      relaxed := ?_ }
  · intro c
    show c ∈ st.openList.erase n ↔ _
    rw [hstat]
    by_cases h : c = n
    · subst h
      rw [if_pos rfl]
      constructor
      · intro hc
        exact absurd ((inv.openNodup.mem_erase_iff).mp hc).1 (by simp)
      · intro hc; cases hc
    · rw [if_neg h, inv.openNodup.mem_erase_iff]
      constructor
      · intro hc; exact (inv.openMem c).mp hc.2
      · intro hc; exact ⟨h, (inv.openMem c).mpr hc⟩
  · intro c hc
    exact inv.inb c (hnv c hc)
  · rw [hstat]
    by_cases h : start = n
    · rw [if_pos h]; intro hx; cases hx
    · rw [if_neg h]; exact inv.startV
  · intro c hc hp
    exact inv.root c (hnv c hc) hp
  · intro c p hp
    obtain ⟨h1, h2, h3, h4⟩ := inv.parentE c p hp
    refine ⟨?_, ?_, h3, h4⟩
    · rw [hstat]
      by_cases h : p = n
      · rw [if_pos h]
      · rw [if_neg h]; exact h1
    · rw [hstat]
      by_cases h : c = n
      · rw [if_pos h]; intro hx; cases hx
      · rw [if_neg h]; exact h2
  · intro c hc
    exact inv.gnn c (hnv c hc)
  · intro c hc q hq
    rw [hstat] at hc
    by_cases h : c = n
    · subst h
      exact popped_optimal g e start st hg inv hpick q hq
    · rw [if_neg h] at hc
      exact inv.closedOpt c hc q hq
  · intro c hc hcn p hp
    rw [hstat, if_neg hcn] at hc
    obtain ⟨h1, h2⟩ := inv.closedExp c hc p hp
    refine ⟨?_, h2⟩
    rw [hstat]
    by_cases h : p = n
    · rw [if_pos h]; intro hx; cases hx
    · rw [if_neg h]; exact h1
  · intro c o hc ho
    rw [hstat] at hc ho
    rw [hfsame, hfsame]
    by_cases hocn : o = n
    · rw [if_pos hocn] at ho; cases ho
    · rw [if_neg hocn] at ho
      by_cases h : c = n
      · subst h
        exact hmin o ((inv.openMem o).mpr ho)
      · rw [if_neg h] at hc
        exact inv.fOrder c o hc ho
  · rw [hstat, if_pos rfl]
  · intro c hc
    rw [hstat] at hc
    rw [hfsame, hfsame]
    by_cases h : c = n
    · subst h; exact le_refl _
    · rw [if_neg h] at hc
      exact inv.fOrder c n hc hnop
  · intro d hd hrest
    exact absurd hd hrest

lemma fScore_eq (g : SearchGrid) (e : Cell) (st : SearchState) (c : Cell) :
    fScore g e st c = st.gScore c + octileQ g c e := rfl

/-- Relaxing one more neighbor offset preserves the expansion
invariant. -/
lemma expandInv_step (g : SearchGrid) (e start n : Cell) (hg : GridNonneg g)
    (d : ℤ × ℤ) (hd : d ∈ neighborOffsets) (rest : List (ℤ × ℤ))
    (st : SearchState) (h : ExpandInv g e start n (d :: rest) st) :
    ExpandInv g e start n rest (relaxNeighbor g n st d) := by
  obtain ⟨hd1, hd2, hd0⟩ := neighborOffsets_spec d hd
  have hnnv : st.status n ≠ NodeStatus.unvisited := by
    rw [h.nClosed]; intro hx; cases hx
  have hgn0 : 0 ≤ st.gScore n := h.gnn n hnnv
  have hnbn : (n.1 + d.1, n.2 + d.2) ≠ n := by
    intro hx
    rw [Prod.ext_iff] at hx
    exact hd0 (Prod.ext (by omega) (by omega))
  have hstep_eq : edgeCostQ g n (n.1 + d.1, n.2 + d.2) (isDiagOffset d) =
      stepCostQ g n (n.1 + d.1, n.2 + d.2) := stepCostQ_offset g n d hd1 hd2
  have hstep_pos : 0 < stepCostQ g n (n.1 + d.1, n.2 + d.2) :=
    stepCostQ_pos g hg n (n.1 + d.1, n.2 + d.2)
  -- the relaxed-property carries over to offsets other than `d`
  have hkeep : ∀ st' : SearchState,
      (∀ c, st'.status c = st.status c ∨
        (st.status c = NodeStatus.unvisited ∧
          st'.status c = NodeStatus.opened)) →
      (∀ c, st'.gScore c ≤ st.gScore c ∨
          st.status c = NodeStatus.unvisited) →
      st'.gScore n = st.gScore n →
      ∀ d₀ ∈ neighborOffsets, d₀ ∉ rest → d₀ ≠ d →
        stepAllowedB g n d₀ = true →
        st'.status (n.1 + d₀.1, n.2 + d₀.2) ≠ NodeStatus.unvisited ∧
          st'.gScore (n.1 + d₀.1, n.2 + d₀.2) ≤
            st'.gScore n + stepCostQ g n (n.1 + d₀.1, n.2 + d₀.2) := by
    intro st' hstat hmono hgn d₀ hd₀ hrest hne hall₀
    have hold := h.relaxed d₀ hd₀ (by
      intro hx
      rcases List.mem_cons.mp hx with hx | hx
      · exact hne hx
      · exact hrest hx) hall₀
    refine ⟨?_, ?_⟩
    · rcases hstat (n.1 + d₀.1, n.2 + d₀.2) with hs | ⟨-, hs⟩
      · rw [hs]; exact hold.1
      · rw [hs]; intro hx; cases hx
    · rcases hmono (n.1 + d₀.1, n.2 + d₀.2) with hm | hm
      · rw [hgn]; exact le_trans hm hold.2
      · exact absurd hm hold.1
  by_cases hall : stepAllowedB g n d = true
  on_goal 2 =>
    rw [relaxNeighbor_not_allowed g n st d hall]
    refine { h with relaxed := ?_ }
    intro d₀ hd₀ hrest hall₀
    by_cases hne : d₀ = d
    · subst hne; exact absurd hall₀ hall
    · exact hkeep st (fun _ => Or.inl rfl) (fun _ => Or.inl (le_refl _)) rfl
        d₀ hd₀ hrest hne hall₀
  have hedge_nb : AllowedEdge g n (n.1 + d.1, n.2 + d.2) := ⟨d, hd, rfl, hall⟩
  have hcons_nb : octileQ g n e ≤
      stepCostQ g n (n.1 + d.1, n.2 + d.2) +
        octileQ g (n.1 + d.1, n.2 + d.2) e :=
    octileQ_consistent g hg n (n.1 + d.1, n.2 + d.2) e hedge_nb
  by_cases hncl : st.status (n.1 + d.1, n.2 + d.2) = NodeStatus.closed
  · -- closed neighbor: state unchanged; its bound follows from the f-order
    rw [relaxNeighbor_closed g n st d hncl]
    refine { h with relaxed := ?_ }
    intro d₀ hd₀ hrest hall₀
    by_cases hne : d₀ = d
    · rw [hne]
      refine ⟨(by rw [hncl]; intro hx; cases hx), ?_⟩
      have hford := h.fOrderN (n.1 + d.1, n.2 + d.2) hncl
      rw [fScore_eq, fScore_eq] at hford
      linarith
    · exact hkeep st (fun _ => Or.inl rfl) (fun _ => Or.inl (le_refl _)) rfl
        d₀ hd₀ hrest hne hall₀
  by_cases hcond : st.status (n.1 + d.1, n.2 + d.2) = NodeStatus.unvisited ∨
      st.gScore n + edgeCostQ g n (n.1 + d.1, n.2 + d.2) (isDiagOffset d) <
        st.gScore (n.1 + d.1, n.2 + d.2)
  on_goal 2 =>
    -- no improvement: state unchanged; the old score already meets the bound
    rw [relaxNeighbor_no_improve g n st d hcond]
    rw [not_or] at hcond
    refine { h with relaxed := ?_ }
    intro d₀ hd₀ hrest hall₀
    by_cases hne : d₀ = d
    · subst hne
      refine ⟨hcond.1, ?_⟩
      have := le_of_not_lt hcond.2
      rw [hstep_eq] at this
      exact this
    · exact hkeep st (fun _ => Or.inl rfl) (fun _ => Or.inl (le_refl _)) rfl
        d₀ hd₀ hrest hne hall₀
  -- the update case
  rw [relaxNeighbor_update g n st d hall hncl hcond]
  have hinb_nb : g.inB (n.1 + d.1, n.2 + d.2) = true := by
    have hall' := hall
    unfold stepAllowedB at hall'
    rw [Bool.and_eq_true] at hall'
    exact hall'.1
  have htent_pos : 0 < st.gScore n +
      edgeCostQ g n (n.1 + d.1, n.2 + d.2) (isDiagOffset d) := by
    rw [hstep_eq]; linarith
  have hnbstart : (n.1 + d.1, n.2 + d.2) ≠ start := by
    intro hx
    rcases hcond with hun | himp
    · rw [hx] at hun; exact h.startV hun
    · have hsp := hstep_pos
      rw [hstep_eq] at himp
      rw [hx] at himp hsp
      rw [h.startG] at himp
      linarith
  refine
    { openMem := ?_, openNodup := ?_, inb := ?_, startV := ?_, startG := ?_
      startP := ?_, root := ?_, parentE := ?_, gnn := ?_, closedOpt := ?_
      closedExpOld := ?_, fOrder := ?_, nClosed := ?_, fOrderN := ?_
      relaxed := ?_ }
  · intro c
    dsimp only
    by_cases hc : c = (n.1 + d.1, n.2 + d.2)
    · rw [if_pos hc]
      subst hc
      constructor
      · intro _; rfl
      · intro _
        split
        · rename_i hop
          exact (h.openMem _).mpr hop
        · exact List.mem_cons_self _ _
    · rw [if_neg hc]
      split
      · exact h.openMem c
      · rw [List.mem_cons]
        constructor
        · rintro (rfl | hm)
          · exact absurd rfl hc
          · exact (h.openMem c).mp hm
        · intro hs; exact Or.inr ((h.openMem c).mpr hs)
  · dsimp only
    split
    · exact h.openNodup
    · rename_i hop
      exact List.Nodup.cons (fun hm => hop ((h.openMem _).mp hm)) h.openNodup
  · intro c hc
    dsimp only at hc
    by_cases hcc : c = (n.1 + d.1, n.2 + d.2)
    · rw [hcc]; exact hinb_nb
    · rw [if_neg hcc] at hc
      exact h.inb c hc
  · dsimp only
    rw [if_neg (fun hx => hnbstart hx.symm)]
    exact h.startV
  · dsimp only
    rw [if_neg (fun hx => hnbstart hx.symm)]
    exact h.startG
  · dsimp only
    rw [if_neg (fun hx => hnbstart hx.symm)]
    exact h.startP
  · intro c hcnv hcp
    dsimp only at hcnv hcp
    by_cases hc : c = (n.1 + d.1, n.2 + d.2)
    · rw [if_pos hc] at hcp; cases hcp
    · rw [if_neg hc] at hcnv hcp
      exact h.root c hcnv hcp
  · intro c p hp
    dsimp only at hp ⊢
    by_cases hc : c = (n.1 + d.1, n.2 + d.2)
    · rw [if_pos hc] at hp
      obtain rfl : n = p := by injection hp
      subst hc
      have hnn : ¬(n = (n.1 + d.1, n.2 + d.2)) := fun hx => hnbn hx.symm
      refine ⟨?_, ?_, hedge_nb, ?_⟩
      · rw [if_neg hnn]
        exact h.nClosed
      · rw [if_pos rfl]
        intro hx; cases hx
      · rw [if_pos rfl, if_neg hnn, hstep_eq]
    · rw [if_neg hc] at hp
      obtain ⟨h1, h2, h3, h4⟩ := h.parentE c p hp
      have hpnb : p ≠ (n.1 + d.1, n.2 + d.2) := by
        intro hx; rw [hx] at h1; exact hncl h1
      rw [if_neg hc, if_neg hpnb, if_neg hc, if_neg hpnb]
      exact ⟨h1, h2, h3, h4⟩
  · intro c hc
    dsimp only at hc ⊢
    by_cases hcc : c = (n.1 + d.1, n.2 + d.2)
    · rw [if_pos hcc]
      exact htent_pos.le
    · rw [if_neg hcc] at hc ⊢
      exact h.gnn c hc
  · intro c hcc q hq
    dsimp only at hcc ⊢
    by_cases hc : c = (n.1 + d.1, n.2 + d.2)
    · rw [if_pos hc] at hcc; cases hcc
    · rw [if_neg hc] at hcc ⊢
      exact h.closedOpt c hcc q hq
  · intro c hcc hcn p hEdge
    dsimp only at hcc ⊢
    have hc : c ≠ (n.1 + d.1, n.2 + d.2) := by
      intro hx; rw [if_pos hx] at hcc; cases hcc
    rw [if_neg hc] at hcc
    obtain ⟨hp1, hp2⟩ := h.closedExpOld c hcc hcn p hEdge
    by_cases hp : p = (n.1 + d.1, n.2 + d.2)
    · subst hp
      refine ⟨?_, ?_⟩
      · rw [if_pos rfl]
        intro hx; cases hx
      · rw [if_pos rfl, if_neg hc]
        rcases hcond with hun | himp
        · exact absurd hun hp1
        · exact le_trans himp.le hp2
    · refine ⟨?_, ?_⟩
      · rw [if_neg hp]
        exact hp1
      · rw [if_neg hp, if_neg hc]
        exact hp2
  · intro c o hcc hoo
    dsimp only at hcc hoo ⊢
    have hc : c ≠ (n.1 + d.1, n.2 + d.2) := by
      intro hx; rw [if_pos hx] at hcc; cases hcc
    rw [if_neg hc] at hcc
    rw [fScore_eq, fScore_eq]
    dsimp only
    rw [if_neg hc]
    by_cases ho : o = (n.1 + d.1, n.2 + d.2)
    · rw [if_pos ho]
      subst ho
      have hford := h.fOrderN c hcc
      rw [fScore_eq, fScore_eq] at hford
      rw [hstep_eq]
      linarith
    · rw [if_neg ho] at hoo ⊢
      have := h.fOrder c o hcc hoo
      rw [fScore_eq, fScore_eq] at this
      exact this
  · dsimp only
    rw [if_neg (fun hx : n = _ => hnbn hx.symm)]
    exact h.nClosed
  · intro c hcc
    dsimp only at hcc ⊢
    have hc : c ≠ (n.1 + d.1, n.2 + d.2) := by
      intro hx; rw [if_pos hx] at hcc; cases hcc
    rw [if_neg hc] at hcc
    rw [fScore_eq, fScore_eq]
    dsimp only
    rw [if_neg hc, if_neg (fun hx : n = _ => hnbn hx.symm)]
    have := h.fOrderN c hcc
    rw [fScore_eq, fScore_eq] at this
    exact this
  · intro d₀ hd₀ hrest hall₀
    dsimp only
    by_cases hne : d₀ = d
    · rw [hne]
      refine ⟨?_, ?_⟩
      · rw [if_pos rfl]
        intro hx; cases hx
      · rw [if_pos rfl, if_neg (fun hx : n = _ => hnbn hx.symm), hstep_eq]
    · have hnb₀ : (n.1 + d₀.1, n.2 + d₀.2) ≠ (n.1 + d.1, n.2 + d.2) := by
        intro hx
        rw [Prod.ext_iff] at hx
        exact hne (Prod.ext (by omega) (by omega))
      have hold := h.relaxed d₀ hd₀ (by
        intro hx
        rcases List.mem_cons.mp hx with hx | hx
        · exact hne hx
        · exact hrest hx) hall₀
      rw [if_neg hnb₀, if_neg hnb₀,
        if_neg (fun hx : n = _ => hnbn hx.symm)]
      exact hold

/-- Folding the relaxation over a suffix of the neighbor offsets. -/
lemma expandInv_fold (g : SearchGrid) (e start n : Cell) (hg : GridNonneg g) :
    ∀ (rest : List (ℤ × ℤ)) (st : SearchState),
      (∀ d ∈ rest, d ∈ neighborOffsets) →
      ExpandInv g e start n rest st →
      ExpandInv g e start n [] (rest.foldl (relaxNeighbor g n) st) := by
  intro rest
  induction rest with
  | nil => intro st _ h; exact h
  | cons d rest ih =>
    intro st hmem h
    simp only [List.foldl_cons]
    exact ih (relaxNeighbor g n st d)
      (fun x hx => hmem x (List.mem_cons_of_mem d hx))
      (expandInv_step g e start n hg d (hmem d (List.mem_cons_self d rest))
        rest st h)

/-- One loop iteration — close the popped node, expand its neighbors —
preserves the search invariant. -/
lemma searchInv_preserved (g : SearchGrid) (e start : Cell)
    (st : SearchState) (hg : GridNonneg g) (inv : SearchInv g e start st)
    (n : Cell) (hpick : pickBest g e st st.openList = some n) :
    SearchInv g e start (expandNode g n (closeNode n st)) := by
  have h0 := expandInv_init g e start st hg inv n hpick
  have h1 := expandInv_fold g e start n hg neighborOffsets (closeNode n st)
    (fun _ hx => hx) h0
  unfold expandNode
  exact
    { openMem := h1.openMem, openNodup := h1.openNodup, inb := h1.inb
      startV := h1.startV, startG := h1.startG, startP := h1.startP
      root := h1.root, parentE := h1.parentE, gnn := h1.gnn
      closedOpt := h1.closedOpt
      closedExp := by
        intro c hc p hp
        by_cases hcn : c = n
        · subst hcn
          obtain ⟨d, hd, rfl, hall⟩ := hp
          exact h1.relaxed d hd (by simp) hall
        · exact h1.closedExpOld c hc hcn p hp
      fOrder := h1.fOrder }

/-- The finite set of in-bounds cells. -/
def gridCells (g : SearchGrid) : Finset Cell :=
  Finset.Icc ((0:ℤ), (0:ℤ)) ((g.width : ℤ) - 1, (g.height : ℤ) - 1)

lemma mem_gridCells (g : SearchGrid) (c : Cell) :
    c ∈ gridCells g ↔ g.inB c = true := by
  unfold gridCells SearchGrid.inB
  rw [Finset.mem_Icc, decide_eq_true_iff, Prod.le_def, Prod.le_def]
  dsimp only
  omega

lemma card_gridCells (g : SearchGrid) :
    (gridCells g).card = g.width * g.height := by
  unfold gridCells
  rw [Finset.card_Icc_prod]
  dsimp only
  rw [Int.card_Icc, Int.card_Icc]
  have h1 : ((g.width : ℤ) - 1 + 1 - 0).toNat = g.width := by omega
  have h2 : ((g.height : ℤ) - 1 + 1 - 0).toNat = g.height := by omega
  rw [h1, h2]

/-- In-bounds cells with a strictly smaller g-score than `c`: the measure
that bounds the length of parent chains. -/
def below (g : SearchGrid) (st : SearchState) (c : Cell) : Finset Cell :=
  (gridCells g).filter fun x => st.gScore x < st.gScore c

lemma below_parent_lt (g : SearchGrid) (st : SearchState) (c p : Cell)
    (hin : g.inB p = true) (hlt : st.gScore p < st.gScore c) :
    (below g st p).card < (below g st c).card := by
  have hsub : below g st p ⊆ below g st c := by
    intro x hx
    rw [below, Finset.mem_filter] at hx ⊢
    exact ⟨hx.1, lt_trans hx.2 hlt⟩
  have hpmem : p ∈ below g st c := by
    rw [below, Finset.mem_filter]
    exact ⟨(mem_gridCells g p).mpr hin, hlt⟩
  have hpnot : p ∉ below g st p := by
    rw [below, Finset.mem_filter]
    rintro ⟨-, hx⟩
    exact lt_irrefl _ hx
  exact Finset.card_lt_card
    ((Finset.ssubset_iff_of_subset hsub).mpr ⟨p, hpmem, hpnot⟩)

lemma below_card_le (g : SearchGrid) (st : SearchState) (c : Cell) :
    (below g st c).card ≤ g.width * g.height :=
  le_trans (Finset.card_filter_le _ _) (le_of_eq (card_gridCells g))

lemma buildPath_getLast (parent : Cell → Option Cell) :
    ∀ (fuel : ℕ) (c : Cell) (acc : List Cell),
      (buildPath parent fuel c acc).getLast? = (c :: acc).getLast? := by
  intro fuel
  induction fuel with
  | zero => intro c acc; rfl
  | succ fuel ih =>
    intro c acc
    unfold buildPath
    cases hp : parent c with
    | none => rfl
    | some p =>
      rw [ih p (c :: acc), List.getLast?_cons_cons]

/-- Reconstruction correctness: with enough fuel, the parent walk reaches
the start, and its cost telescopes to the g-score of the reconstruction's
starting cell. -/
lemma buildPath_spec (g : SearchGrid) (e start : Cell) (st : SearchState)
    (hg : GridNonneg g) (inv : SearchInv g e start st) :
    ∀ (fuel : ℕ) (c : Cell) (acc : List Cell),
      st.status c ≠ NodeStatus.unvisited →
      (below g st c).card ≤ fuel →
      (buildPath st.parent fuel c acc).head? = some start ∧
        walkCostQ g (buildPath st.parent fuel c acc) =
          st.gScore c + walkCostQ g (c :: acc) := by
  intro fuel
  induction fuel with
  | zero =>
    intro c acc hnv hcard
    have hpc : st.parent c = none := by
      cases hp : st.parent c with
      | none => rfl
      | some p =>
        obtain ⟨hpcl, -, -, hcost⟩ := inv.parentE c p hp
        have hinp : g.inB p = true := inv.inb p (by
          rw [hpcl]; intro hx; cases hx)
        have hlt : st.gScore p < st.gScore c := by
          have := stepCostQ_pos g hg p c
          rw [hcost]; linarith
        have := below_parent_lt g st c p hinp hlt
        omega
    have hcs := inv.root c hnv hpc
    refine ⟨?_, ?_⟩
    · show (c :: acc).head? = some start
      rw [hcs]; rfl
    · show walkCostQ g (c :: acc) = st.gScore c + walkCostQ g (c :: acc)
      rw [hcs, inv.startG, zero_add]
  | succ fuel ih =>
    intro c acc hnv hcard
    cases hp : st.parent c with
    | none =>
      have hcs := inv.root c hnv hp
      have hred : buildPath st.parent (fuel + 1) c acc = c :: acc := by
        show (match st.parent c with
          | none => c :: acc
          | some q => buildPath st.parent fuel q (c :: acc)) = c :: acc
        rw [hp]
      rw [hred]
      refine ⟨?_, ?_⟩
      · rw [hcs]; rfl
      · rw [hcs, inv.startG, zero_add]
    | some p =>
      obtain ⟨hpcl, -, -, hcost⟩ := inv.parentE c p hp
      have hpnv : st.status p ≠ NodeStatus.unvisited := by
        rw [hpcl]; intro hx; cases hx
      have hinp : g.inB p = true := inv.inb p hpnv
      have hlt : st.gScore p < st.gScore c := by
        have := stepCostQ_pos g hg p c
        rw [hcost]; linarith
      have hcard' : (below g st p).card ≤ fuel := by
        have := below_parent_lt g st c p hinp hlt
        omega
      obtain ⟨ih1, ih2⟩ := ih p (c :: acc) hpnv hcard'
      have hred : buildPath st.parent (fuel + 1) c acc =
          buildPath st.parent fuel p (c :: acc) := by
        show (match st.parent c with
          | none => c :: acc
          | some q => buildPath st.parent fuel q (c :: acc)) =
          buildPath st.parent fuel p (c :: acc)
        rw [hp]
      rw [hred]
      refine ⟨ih1, ?_⟩
      rw [ih2]
      show st.gScore p + (stepCostQ g p c + walkCostQ g (c :: acc)) =
        st.gScore c + walkCostQ g (c :: acc)
      rw [hcost]
      ring

/-- The seeded initial state satisfies the invariant. -/
lemma searchInv_init (g : SearchGrid) (e start : Cell)
    (hstart : g.inB start = true) :
    SearchInv g e start (initialState start) := by
  have hstat : ∀ c, (initialState start).status c =
      if c = start then NodeStatus.opened else NodeStatus.unvisited :=
    fun _ => rfl
  have hnv : ∀ c, (initialState start).status c ≠ NodeStatus.unvisited →
      c = start := by
    intro c hc
    rw [hstat] at hc
    by_cases h : c = start
    · exact h
    · rw [if_neg h] at hc
      exact absurd rfl hc
  have hncl : ∀ c, (initialState start).status c ≠ NodeStatus.closed := by
    intro c
    rw [hstat]
    by_cases h : c = start
    · rw [if_pos h]; intro hx; cases hx
    · rw [if_neg h]; intro hx; cases hx
  refine
    { openMem := ?_, openNodup := List.nodup_singleton start, inb := ?_
      startV := ?_, startG := rfl, startP := rfl, root := ?_
      parentE := ?_, gnn := fun _ _ => le_refl 0, closedOpt := ?_
      closedExp := ?_, fOrder := ?_ }
  · intro c
    rw [hstat]
    by_cases h : c = start
    · subst h
      simp [initialState]
    · rw [if_neg h]
      simp [initialState, h]
  · intro c hc
    rw [hnv c hc]
    exact hstart
  · rw [hstat, if_pos rfl]
    intro hx; cases hx
  · intro c hc _
    exact hnv c hc
  · intro c p hp
    cases hp
  · intro c hc
    exact absurd hc (hncl c)
  · intro c hc
    exact absurd hc (hncl c)
  · intro c o hc
    exact absurd hc (hncl c)

/-- The search loop returns only walks from start to goal whose cost is
minimal among all engine walks. -/
lemma searchLoop_returns (g : SearchGrid) (e start : Cell)
    (hg : GridNonneg g) :
    ∀ (fuel : ℕ) (st : SearchState), SearchInv g e start st →
      ∀ path, searchLoop g e fuel st = some path →
        QWalk g path start e ∧
          ∀ q, QWalk g q start e → walkCostQ g path ≤ walkCostQ g q := by
  intro fuel
  induction fuel with
  | zero => intro st _ path hpath; simp [searchLoop] at hpath
  | succ fuel ih =>
    intro st inv path hpath
    unfold searchLoop at hpath
    cases hpick : pickBest g e st st.openList with
    | none => rw [hpick] at hpath; simp at hpath
    | some n =>
      rw [hpick] at hpath
      dsimp only at hpath
      by_cases hgoal : n = e
      · rw [if_pos hgoal] at hpath
        obtain rfl : buildPath st.parent (g.width * g.height) e [] = path :=
          by injection hpath
        obtain ⟨hmem, -⟩ := pickBest_spec g e st st.openList n hpick
        have hnop : st.status n = NodeStatus.opened := (inv.openMem n).mp hmem
        have henv : st.status e ≠ NodeStatus.unvisited := by
          rw [← hgoal, hnop]; intro hx; cases hx
        obtain ⟨hhead, hcost⟩ := buildPath_spec g e start st hg inv
          (g.width * g.height) e [] henv (below_card_le g st e)
        have hchain : List.Chain' (AllowedEdge g)
            (buildPath st.parent (g.width * g.height) e []) :=
          buildPath_chain g st.parent
            (fun c p hcp => (inv.parentE c p hcp).2.2.1)
            (g.width * g.height) e [] (List.chain'_singleton e)
        have hlast : (buildPath st.parent (g.width * g.height) e
            []).getLast? = some e := by
          rw [buildPath_getLast]
          rfl
        refine ⟨⟨hhead, hlast, hchain⟩, ?_⟩
        intro q hq
        have hbound : st.gScore n ≤ walkCostQ g q :=
          popped_optimal g e start st hg inv hpick q (by rw [hgoal]; exact hq)
        calc walkCostQ g (buildPath st.parent (g.width * g.height) e [])
            = st.gScore e + walkCostQ g [e] := hcost
          _ = st.gScore e := by
              show st.gScore e + 0 = st.gScore e
              ring
          _ = st.gScore n := by rw [hgoal]
          _ ≤ walkCostQ g q := hbound
      · rw [if_neg hgoal] at hpath
        exact ih (expandNode g n (closeNode n st))
          (searchInv_preserved g e start st hg inv n hpick) path hpath

/-- The search's returned path is an engine walk from start to goal of
minimal cost among all engine walks. -/
lemma findPath_optimal (g : SearchGrid) (hg : GridNonneg g) (s e : Cell)
    (path : List Cell) (h : findPath g s e = some path) :
    QWalk g path s e ∧ ∀ q, QWalk g q s e →
      walkCostQ g path ≤ walkCostQ g q := by
  unfold findPath at h
  split at h
  case isFalse => exact absurd h (by simp)
  case isTrue hb =>
    rw [Bool.and_eq_true] at hb
    exact searchLoop_returns g e s hg (maxIterations g) (initialState s)
      (searchInv_init g e s hb.1) path h

/-! ## Recalculation throttle

Modelled from the spec: the repository documents the `TargetFollow`
throttle settings (MinRecalculationInterval, TargetMoveThreshold,
SwarmMoveThreshold, UseDistanceBasedThrottling, MaxThrottleDistance,
MaxThrottleMultiplier) and the suppression policy, but not the decision
function's code; the definitions below follow the documented policy. -/

/-- Throttle settings of `PathfindingConfiguration`. -/
structure ThrottleConfig where
  minRecalculationInterval : ℚ
  targetMoveThreshold : ℕ
  swarmMoveThreshold : ℕ
  useDistanceBasedThrottling : Bool
  maxThrottleDistance : ℚ
  maxThrottleMultiplier : ℚ

/-- Throttle state: last recalculation time and the last observed target
and origin (swarm) cells. -/
structure ThrottleState where
  lastRecalcTime : ℚ
  lastTargetCell : Cell
  lastOriginCell : Cell

/-- Displacement in grid cells (Chebyshev distance, cells moved). -/
def cellDisplacement (a b : Cell) : ℕ :=
  max (a.1 - b.1).natAbs (a.2 - b.2).natAbs

/-- Effective minimum interval: when distance-based throttling is on, the
configured interval scales up monotonically with distance-to-target,
reaching the maximum multiplier at `maxThrottleDistance`. -/
def effectiveMinInterval (cfg : ThrottleConfig) (dist : ℚ) : ℚ :=
  if cfg.useDistanceBasedThrottling then
    cfg.minRecalculationInterval *
      (1 + (cfg.maxThrottleMultiplier - 1) *
        min 1 (max 0 dist / cfg.maxThrottleDistance))
  else cfg.minRecalculationInterval

/-- Throttle decision: recalculate only if the effective minimum interval
has elapsed AND either displacement threshold is met; on trigger the state
records the new timestamp and both baselines, on suppression it is
returned unchanged. -/
def shouldRecalculate (cfg : ThrottleConfig) (st : ThrottleState) (now : ℚ)
    (targetPos originPos : Cell) (dist : ℚ) : Bool × ThrottleState :=
  if effectiveMinInterval cfg dist ≤ now - st.lastRecalcTime ∧
      (cfg.targetMoveThreshold ≤ cellDisplacement targetPos st.lastTargetCell ∨
        cfg.swarmMoveThreshold ≤ cellDisplacement originPos st.lastOriginCell)
  then (true, ⟨now, targetPos, originPos⟩)
  else (false, st)

/-- Throttle settings of Scenario D: minInterval 0.5 s, target threshold 2
cells, swarm threshold 3 cells, distance throttling off. -/
def scenarioThrottleCfg : ThrottleConfig :=
  { minRecalculationInterval := 1/2, targetMoveThreshold := 2
    swarmMoveThreshold := 3, useDistanceBasedThrottling := false
    maxThrottleDistance := 50, maxThrottleMultiplier := 3 }

/-- Baseline throttle state at time 0 observing target and origin at the
grid origin. -/
def throttleStateZero : ThrottleState := ⟨0, (0, 0), (0, 0)⟩

lemma throttle_scenario_early :
    shouldRecalculate scenarioThrottleCfg throttleStateZero (1/10)
      (1, 0) (0, 0) 0 = (false, throttleStateZero) := by
  unfold shouldRecalculate
  rw [if_neg]
  rintro ⟨ht, -⟩
  rw [show effectiveMinInterval scenarioThrottleCfg 0 = 1/2 from rfl] at ht
  norm_num [throttleStateZero] at ht

lemma throttle_scenario_below_threshold :
    shouldRecalculate scenarioThrottleCfg throttleStateZero (6/10)
      (1, 0) (0, 0) 0 = (false, throttleStateZero) := by
  unfold shouldRecalculate
  rw [if_neg]
  rintro ⟨-, hd⟩
  rcases hd with hd | hd <;>
    simp [scenarioThrottleCfg, throttleStateZero, cellDisplacement] at hd

lemma throttle_scenario_trigger :
    shouldRecalculate scenarioThrottleCfg throttleStateZero (6/10)
      (2, 0) (0, 0) 0 = (true, ⟨6/10, (2, 0), (0, 0)⟩) := by
  unfold shouldRecalculate
  rw [if_pos]
  constructor
  · rw [show effectiveMinInterval scenarioThrottleCfg 0 = 1/2 from rfl]
    norm_num [throttleStateZero]
  · left
    simp [scenarioThrottleCfg, throttleStateZero, cellDisplacement]

/-! ## Service and events

Modelled from the spec: `PathfindingService.CalculatePath` is documented
to return a list of world positions, or `null` if no path is found, and —
per the documented caution — calling it without initialization returns
`null`.  `PathCalculatedEvent` carries the result, the world path (`null`
if failed), the calculation time and the success flag.  The service and
event-construction code itself is not in the repository. -/

/-- A world-space waypoint `(x, y, z)`. -/
abbrev WorldPoint := ℚ × ℚ × ℚ

/-- Convert a grid cell to a world waypoint: X/Z from the cell center,
Y from the cell's elevation plus the requested height offset. -/
def toWorldPoint (g : SearchGrid) (heightOffset : ℚ) (c : Cell) :
    WorldPoint :=
  (g.origin.1 + ((c.1 : ℚ) + 1/2) * g.cellSize,
    g.elevation c + heightOffset,
    g.origin.2 + ((c.2 : ℚ) + 1/2) * g.cellSize)

/-- Service state: `none` until `Initialize` has succeeded. -/
structure ServiceState where
  grid : Option SearchGrid

/-- The service before any successful initialization. -/
def uninitializedService : ServiceState := ⟨none⟩

/-- `CalculatePath`: documented to return `null` (modelled as `none`)
when called without initialization, and `null` when no path is found;
otherwise the grid path converted to world positions. -/
def calculatePath (svc : ServiceState) (startPos endPos : Cell)
    (heightOffset : ℚ) : Option (List WorldPoint) :=
  match svc.grid with
  | none => none
  | some g => (findPath g startPos endPos).map
      (List.map (toWorldPoint g heightOffset))

/-- `PathResult`: success flag, waypoints (empty on failure), elapsed
time, request id. -/
structure PathResult where
  success : Bool
  waypoints : List WorldPoint
  elapsedMs : ℚ
  requestId : ℕ

/-- `PathCalculatedEvent`: result object, world path (`none` models C#'s
`null`, used when the calculation failed), calculation time, success
flag. -/
structure PathCalculatedEvent where
  Result : PathResult
  WorldPath : Option (List WorldPoint)
  CalculationTime : ℚ
  Success : Bool

/-- Build the `PathResult` of one calculation outcome. -/
def mkPathResult (outcome : Option (List WorldPoint)) (elapsed : ℚ)
    (id : ℕ) : PathResult :=
  match outcome with
  | some wps => ⟨true, wps, elapsed, id⟩
  | none => ⟨false, [], elapsed, id⟩

/-- Publish a `PathCalculatedEvent` for a result: the world path is the
waypoint list on success and `null` on failure. -/
def publishPathCalculated (r : PathResult) : PathCalculatedEvent :=
  ⟨r, if r.success then some r.waypoints else none, r.elapsedMs, r.success⟩

/-- One full calculation round: run the service call and publish its
event. -/
def runPathCalculation (svc : ServiceState) (startPos endPos : Cell)
    (heightOffset elapsed : ℚ) (id : ℕ) : PathCalculatedEvent :=
  publishPathCalculated (mkPathResult
    (calculatePath svc startPos endPos heightOffset) elapsed id)

/-- A 2×1 grid whose two cells both sit at elevation `-100`, with
multiplier `1` and cell size `1`. -/
def cexGrid : GridModel :=
  { width := 2, height := 1, cellSize := 1, multiplier := 1
    elevation := fun _ => -100 }

/-- A flat 4×4 grid (all elevations `0`), cell size `1`, multiplier `1`. -/
def flatGrid : GridModel :=
  { width := 4, height := 4, cellSize := 1, multiplier := 1
    elevation := fun _ => 0 }

/-- A trivial flat 1×1 search grid. -/
def unitGrid : SearchGrid :=
  { width := 1, height := 1, cellSize := 1, multiplier := 0
    origin := (0, 0), elevation := fun _ => 0 }

/-- Consistency of the scaled octile heuristic on the real-valued cost
model: along any single 8-directional step it decreases by at most the
step's edge cost. -/
lemma heuristic_consistent_step (G : GridModel) (goal : Cell)
    (hcs : 0 < G.cellSize) (hm : 0 ≤ G.multiplier)
    (helev : ∀ c, 0 ≤ G.elevation c) (a b : Cell) (hstep : IsStep a b) :
    heuristic G.cellSize a goal ≤
      stepCost G a b + heuristic G.cellSize b goal := by
  have hoct := octileDist_step a b goal hstep
  have hmov : movementCost (isDiagStep a b) G.cellSize ≤ stepCost G a b :=
    movementCost_le_edgeCost _ _ _ _ _ (helev b) hm
  unfold heuristic
  have h1 := mul_le_mul_of_nonneg_left hoct hcs.le
  calc G.cellSize * octileDist (a.1 - goal.1).natAbs (a.2 - goal.2).natAbs
      ≤ G.cellSize * ((if isDiagStep a b then Real.sqrt 2 else 1)
          + octileDist (b.1 - goal.1).natAbs (b.2 - goal.2).natAbs) := h1
    _ = (if isDiagStep a b then Real.sqrt 2 else 1) * G.cellSize
        + G.cellSize
          * octileDist (b.1 - goal.1).natAbs (b.2 - goal.2).natAbs := by
        ring
    _ ≤ stepCost G a b + G.cellSize
          * octileDist (b.1 - goal.1).natAbs (b.2 - goal.2).natAbs := by
        unfold movementCost at hmov
        linarith

/-- The consistency property of the heuristic claimed by the
documentation. -/
def HeuristicConsistent (G : GridModel) (goal : Cell) : Prop :=
  ∀ a b, IsStep a b →
    heuristic G.cellSize a goal ≤
      stepCost G a b + heuristic G.cellSize b goal

/-- Cost-optimality of the search's returned paths: every returned path
is an engine walk from start to goal, of cost no larger than any other
engine walk between them. -/
def ReturnedPathOptimal (g : SearchGrid) (s e : Cell) : Prop :=
  ∀ path, findPath g s e = some path →
    QWalk g path s e ∧ ∀ q, QWalk g q s e →
      walkCostQ g path ≤ walkCostQ g q

end AirPath

namespace AirPathClaims

open AirPath

/-- C1 (counterexample): on a grid configuration with `costMultiplier = 1 ≥ 0`
and positive cell size, but negative cell elevations (elevation `-100`
everywhere), the octile heuristic is *not* admissible: the single-step walk
from `(0,0)` to the goal `(1,0)` costs `1 + (-100)·1·0.01 = 0`, strictly
below the heuristic value `1`. -/
theorem C1_counterexample :
    0 ≤ cexGrid.multiplier ∧ 0 < cexGrid.cellSize ∧
      ¬ HeuristicAdmissible cexGrid (1, 0) := by
  refine ⟨by norm_num [cexGrid], by norm_num [cexGrid], fun h => ?_⟩
  have hwalk : IsWalkFrom cexGrid [(0, 0), (1, 0)] (0, 0) (1, 0) := by
    refine ⟨⟨?_, ?_⟩, by simp, by simp⟩
    · intro c hc
      simp only [List.mem_cons, List.mem_singleton] at hc
      rcases hc with rfl | hc
      · decide
      · rcases hc with rfl | hc
        · decide
        · simp at hc
    · refine List.chain'_cons.mpr ⟨?_, List.chain'_singleton _⟩
      decide
  have hle := h [(0, 0), (1, 0)] (0, 0) hwalk
  have hdiag : isDiagStep ((0:ℤ), (0:ℤ)) ((1:ℤ), (0:ℤ)) = false := by decide
  have hcost : walkCost cexGrid [(0, 0), (1, 0)] = 0 := by
    show stepCost cexGrid (0, 0) (1, 0) + walkCost cexGrid [(1, 0)] = 0
    rw [show walkCost cexGrid [(1, 0)] = 0 from rfl]
    unfold stepCost edgeCost movementCost flyCost altitudeCost climbCost
      slopePenalty
    rw [hdiag]
    norm_num [cexGrid]
  have hheur : heuristic cexGrid.cellSize (0, 0) (1, 0) = 1 := by
    unfold heuristic octileDist
    norm_num [cexGrid]
  rw [hcost, hheur] at hle
  linarith

/-- C1 (amended): for every grid configuration with `costMultiplier ≥ 0`,
positive cell size, and **non-negative cell elevations**, the scaled octile
heuristic `cellSize · (max(|dx|,|dy|) + (√2−1)·min(|dx|,|dy|))` at any cell
never exceeds the cost of any walk from that cell to the goal under the
edge-cost model — it never exceeds the true minimal remaining cost
(admissibility) — and it is consistent (one step decreases it by at most
that step's edge cost); consequently, on every non-degenerate search grid
the path returned by the (spec-modelled, executable) search is
cost-optimal: an engine walk from start to goal whose total edge cost is
minimal among all walks the engine's movement rules allow. -/
theorem C1_octile_admissible_consistent_optimal (G : GridModel)
    (goal : Cell) (hcs : 0 < G.cellSize) (hm : 0 ≤ G.multiplier)
    (helev : ∀ c, 0 ≤ G.elevation c) (g : SearchGrid) (s e : Cell)
    (hg : GridNonneg g) :
    HeuristicAdmissible G goal ∧ HeuristicConsistent G goal ∧
      ReturnedPathOptimal g s e :=
  ⟨heuristic_le_walkCost G goal hcs hm helev,
    fun a b hstep => heuristic_consistent_step G goal hcs hm helev a b hstep,
    fun path h => findPath_optimal g hg s e path h⟩

/-- C1 witness: admissibility and consistency on a concrete flat 4×4 grid
with multiplier 1 and goal `(3,3)`, and returned-path optimality on a
concrete 1×1 search grid. -/
theorem C1_witness :
    HeuristicAdmissible flatGrid (3, 3) ∧ HeuristicConsistent flatGrid (3, 3)
      ∧ ReturnedPathOptimal unitGrid (0, 0) (0, 0) :=
  C1_octile_admissible_consistent_optimal flatGrid (3, 3) one_pos zero_le_one
    (fun _ => le_refl 0) unitGrid (0, 0) (0, 0)
    ⟨one_pos, le_refl 0, fun _ => le_refl 0⟩

/-- C2: for every pair of elevations, every step kind, every positive cell
size and every multiplier, the edge cost equals exactly
`movement + altitude + climb + slope` with
`movement = (√2 if diagonal else 1)·cellSize`,
`altitude = toElevation·m·0.01`, `climb = max(0, to−from)·m·0.5`, and
`slope = |to−from|·m·0.1`. -/
theorem C2_edgeCost_decomposition (f t : ℝ) (d : Bool) (cs m : ℝ)
    (hcs : 0 < cs) :
    edgeCost f t d cs m =
      (if d then Real.sqrt 2 else 1) * cs
        + t * m * 0.01
        + max 0 (t - f) * m * 0.5
        + |t - f| * m * 0.1 := by
  unfold edgeCost flyCost movementCost altitudeCost slopePenalty
  rw [climbCost_eq_max]
  ring

/-- C2 witness: the decomposition at concrete inputs
`(f, t, kind, cellSize, m) = (50, 65, cardinal, 1, 5/2)`. -/
theorem C2_witness :
    edgeCost 50 65 false 1 (5/2) =
      (if false then Real.sqrt 2 else 1) * 1
        + 65 * (5/2) * 0.01
        + max 0 (65 - 50) * (5/2) * 0.5
        + |(65:ℝ) - 50| * (5/2) * 0.1 :=
  C2_edgeCost_decomposition 50 65 false 1 (5/2) one_pos

/-- C8 (counterexample): with cell size `1 > 0` and multiplier `1 ≥ 0` but a
negative destination elevation `-1`, the altitude term is negative
(`-0.01`), and the edge cost of a level move at elevation `-1` falls
strictly below the movement cost — refuting the claim that all four terms
are non-negative and `edgeCost ≥ movement` for *every* pair of
elevations. -/
theorem C8_counterexample :
    (0:ℝ) < 1 ∧ (0:ℝ) ≤ 1 ∧ altitudeCost (-1) 1 < 0 ∧
      edgeCost (-1) (-1) false 1 1 < movementCost false 1 := by
  refine ⟨one_pos, zero_le_one, ?_, ?_⟩
  · norm_num [altitudeCost]
  · unfold edgeCost flyCost movementCost altitudeCost climbCost slopePenalty
    norm_num

/-- C8 (amended): for every pair of elevations with **non-negative
destination elevation**, every step kind, every positive cell size and
every non-negative multiplier, all four cost terms are non-negative and
`edgeCost ≥ movement ≥ 0`. -/
theorem C8_cost_terms_nonneg (f t : ℝ) (d : Bool) (cs m : ℝ)
    (hcs : 0 < cs) (hm : 0 ≤ m) (ht : 0 ≤ t) :
    0 ≤ movementCost d cs ∧ 0 ≤ altitudeCost t m ∧ 0 ≤ climbCost f t m ∧
      0 ≤ slopePenalty f t m ∧ movementCost d cs ≤ edgeCost f t d cs m :=
  ⟨movementCost_nonneg d cs hcs.le, altitudeCost_nonneg t m ht hm,
    climbCost_nonneg f t m hm, slopePenalty_nonneg f t m hm,
    movementCost_le_edgeCost f t d cs m ht hm⟩

/-- C8 witness: the amended non-negativity theorem at concrete inputs
`(f, t, kind, cellSize, m) = (5, 0, diagonal, 1, 1)`. -/
theorem C8_witness :
    0 ≤ movementCost true 1 ∧ 0 ≤ altitudeCost 0 1 ∧ 0 ≤ climbCost 5 0 1 ∧
      0 ≤ slopePenalty 5 0 1 ∧ movementCost true 1 ≤ edgeCost 5 0 true 1 1 :=
  C8_cost_terms_nonneg 5 0 true 1 1 one_pos zero_le_one (le_refl 0)

/-- C5: clamping is idempotent (`clamp(clamp(p)) = clamp(p)`), is the
identity on in-bounds positions, acts independently per axis (each
coordinate clamps to `[0, dimension-1]`), and on a 64×64 grid clamps
`(100,-5)` to `(63,0)`. -/
theorem C5_clamp_idempotent (w h : ℕ) (p : Cell) :
    clampToValidGrid w h (clampToValidGrid w h p) = clampToValidGrid w h p
    ∧ (IsValidGridPosition w h p → clampToValidGrid w h p = p)
    ∧ clampToValidGrid w h p = (clampAxis w p.1, clampAxis h p.2)
    ∧ clampToValidGrid 64 64 (100, -5) = (63, 0) := by
  refine ⟨?_, ?_, rfl, by decide⟩
  · unfold clampToValidGrid clampAxis
    dsimp only
    rw [Prod.ext_iff]
    constructor <;> · dsimp only; omega
  · intro hv
    obtain ⟨h1, h2, h3, h4⟩ := hv
    unfold clampToValidGrid clampAxis
    rw [Prod.ext_iff]
    constructor <;> · dsimp only; omega

/-- C5 witness: clamping the in-bounds position `(3,4)` on a 64×64 grid
leaves it unchanged. -/
theorem C5_witness : clampToValidGrid 64 64 (3, 4) = (3, 4) :=
  (C5_clamp_idempotent 64 64 (3, 4)).2.1 (by decide)

/-- C6: for every in-bounds world position, converting to the grid cell via
`floor((world - origin)/cellSize)` and back to the cell center via
`origin + (grid + 0.5)*cellSize` moves the position by at most half a cell
size on each horizontal axis. -/
theorem C6_roundtrip (origin : ℚ × ℚ) (cellSize : ℚ) (w h : ℕ)
    (wpos : ℚ × ℚ) (hcs : 0 < cellSize)
    (hin : WorldInBounds origin cellSize w h wpos) :
    |(gridToWorld origin cellSize (worldToGrid origin cellSize wpos)).1
        - wpos.1| ≤ cellSize / 2
    ∧ |(gridToWorld origin cellSize (worldToGrid origin cellSize wpos)).2
        - wpos.2| ≤ cellSize / 2 := by
  unfold gridToWorld worldToGrid
  exact ⟨axis_roundtrip origin.1 cellSize wpos.1 hcs,
    axis_roundtrip origin.2 cellSize wpos.2 hcs⟩

/-- C6 witness: the round-trip bound at origin `(0,0)`, cell size `1`,
a 4×4 grid and world position `(1/2, 1/2)`. -/
theorem C6_witness :
    |(gridToWorld (0, 0) 1 (worldToGrid (0, 0) 1 (1/2, 1/2))).1
        - (1/2 : ℚ)| ≤ 1 / 2
    ∧ |(gridToWorld (0, 0) 1 (worldToGrid (0, 0) 1 (1/2, 1/2))).2
        - (1/2 : ℚ)| ≤ 1 / 2 :=
  C6_roundtrip (0, 0) 1 4 4 (1/2, 1/2) one_pos
    (by norm_num [WorldInBounds, IsValidGridPosition, worldToGrid])

/-- C3: every path returned by the search contains no diagonal step whose
two flanking cardinal cells are both out of bounds, because a diagonal
neighbor is only expanded when at least one flanking cardinal cell is in
bounds (all cells being walkable). -/
theorem C3_no_corner_cutting (g : SearchGrid) (s e : Cell)
    (path : List Cell) (h : findPath g s e = some path) :
    List.Chain' (CornerSafe g) path := by
  unfold findPath at h
  split at h
  case isFalse => exact absurd h (by simp)
  case isTrue =>
    have hinv : ParentInv g (initialState s) := by
      intro c p hcp
      simp [initialState] at hcp
    exact List.Chain'.imp (fun a b hab => allowedEdge_cornerSafe g a b hab)
      (searchLoop_chain g e (maxIterations g) (initialState s) hinv path h)

/-- C3 witness: the search on a 1×1 grid from `(0,0)` to itself returns
the single-cell path, whose steps (vacuously) never cut corners. -/
theorem C3_witness : List.Chain' (CornerSafe unitGrid) [((0:ℤ), (0:ℤ))] :=
  C3_no_corner_cutting unitGrid (0, 0) (0, 0) [((0:ℤ), (0:ℤ))] (by decide)

/-- C4: the throttle returns `true` exactly when the effective minimum
interval has elapsed AND either the target or the origin has moved at
least its threshold; in Scenario D (minInterval 0.5 s, target threshold 2
cells), a 1-cell target move yields `false` after 0.1 s, still `false`
after 0.6 s, and a 2-cell move after 0.6 s yields `true`. -/
theorem C4_throttle_policy :
    (∀ cfg st (now : ℚ) t o dist,
      ((shouldRecalculate cfg st now t o dist).1 = true ↔
        effectiveMinInterval cfg dist ≤ now - st.lastRecalcTime ∧
          (cfg.targetMoveThreshold ≤ cellDisplacement t st.lastTargetCell ∨
            cfg.swarmMoveThreshold ≤ cellDisplacement o st.lastOriginCell)))
    ∧ (shouldRecalculate scenarioThrottleCfg throttleStateZero (1/10)
        (1, 0) (0, 0) 0).1 = false
    ∧ (shouldRecalculate scenarioThrottleCfg throttleStateZero (6/10)
        (1, 0) (0, 0) 0).1 = false
    ∧ (shouldRecalculate scenarioThrottleCfg throttleStateZero (6/10)
        (2, 0) (0, 0) 0).1 = true := by
  refine ⟨?_, ?_, ?_, ?_⟩
  · intro cfg st now t o dist
    unfold shouldRecalculate
    split
    case isTrue h => exact ⟨fun _ => h, fun _ => rfl⟩
    case isFalse h => exact ⟨fun hc => absurd hc (by simp), fun hp => absurd hp h⟩
  · rw [throttle_scenario_early]
  · rw [throttle_scenario_below_threshold]
  · rw [throttle_scenario_trigger]

/-- C4 witness: the trigger case of Scenario D, extracted from the policy
theorem. -/
theorem C4_witness :
    (shouldRecalculate scenarioThrottleCfg throttleStateZero (6/10)
      (2, 0) (0, 0) 0).1 = true :=
  C4_throttle_policy.2.2.2

/-- C9: `shouldRecalculate` mutates the throttle state only when it
returns `true` — recording the new timestamp and both displacement
baselines — and returns the state unchanged when it returns `false`. -/
theorem C9_throttle_state_mutation (cfg : ThrottleConfig)
    (st : ThrottleState) (now : ℚ) (t o : Cell) (dist : ℚ) :
    ((shouldRecalculate cfg st now t o dist).1 = true →
      (shouldRecalculate cfg st now t o dist).2 = ⟨now, t, o⟩)
    ∧ ((shouldRecalculate cfg st now t o dist).1 = false →
      (shouldRecalculate cfg st now t o dist).2 = st) := by
  unfold shouldRecalculate
  split
  · exact ⟨fun _ => rfl, fun hc => absurd hc (by simp)⟩
  · exact ⟨fun hc => absurd hc (by simp), fun _ => rfl⟩

/-- C9 witness: on the triggering Scenario D input, the state records the
new timestamp and baselines. -/
theorem C9_witness :
    (shouldRecalculate scenarioThrottleCfg throttleStateZero (6/10)
      (2, 0) (0, 0) 0).2 = ⟨6/10, (2, 0), (0, 0)⟩ :=
  (C9_throttle_state_mutation scenarioThrottleCfg throttleStateZero (6/10)
    (2, 0) (0, 0) 0).1 (by rw [throttle_scenario_trigger])

/-- C7 (counterexample): calling `CalculatePath` on the uninitialized
service returns `null` (modelled as `none`) — not an explicit
`Uninitialized` failure result — exactly as the documentation's caution
states, contradicting the claim that such calls never return null. -/
theorem C7_counterexample :
    calculatePath uninitializedService (0, 0) (1, 1) 0 = none := rfl

/-- C7 (amended): every `CalculatePath` call made before successful
initialization returns `null` (`none`); the documented API signals the
uninitialized state by this null return, not by an explicit error
value. -/
theorem C7_uninitialized_returns_null (s e : Cell) (heightOffset : ℚ) :
    calculatePath uninitializedService s e heightOffset = none := rfl

/-- C10: in every published `PathCalculatedEvent`, the `WorldPath` list is
`null` (`none`) if and only if `Success` is `false`; a subscriber
branching on `Success = true` may therefore assume a non-null waypoint
list. -/
theorem C10_worldPath_null_iff_failure (svc : ServiceState) (s e : Cell)
    (heightOffset elapsed : ℚ) (id : ℕ) :
    (runPathCalculation svc s e heightOffset elapsed id).WorldPath = none ↔
      (runPathCalculation svc s e heightOffset elapsed id).Success = false := by
  unfold runPathCalculation publishPathCalculated mkPathResult
  cases calculatePath svc s e heightOffset with
  | none => simp
  | some wps => simp

end AirPathClaims
